import Mathlib

/-!
Verification of the persistent string map of `string_map.go` (package `ps`).

The Go code implements a persistent (path-copying) map from `string` to
`string`, organised as a fixed-arity radix tree over the 64-bit hash digest
of the key: at each level the digest contributes `shiftSize` bits that select
one of `childCount` child slots.  This file gives a shallow embedding of that
code and proves the specified properties about it.

Modelling decisions, in correspondence with the source:

* A tree node (`StringMap` struct) becomes the inductive type `SMap`.  The
  process-wide sentinel `nilMap` (whose children all point to itself and which
  is never mutated) becomes the constructor `SMap.nil`; the reference-identity
  test `IsNil` becomes a constructor test, which is faithful because the code
  never builds a non-sentinel node that is structurally equal to the sentinel
  (every built node has `count ≥ 1`).
* The fixed-size child array `[childCount]*StringMap` becomes a function
  `Fin childCount → SMap`; writing one slot of a cloned array becomes
  `Function.update`.  Cloning a node and overwriting some fields becomes
  constructing a new `SMap.node` — persistence of the original value is then
  by construction, as in the Go code where the original node is not touched.
* `clone` needs no separate embedding: `m := self.clone(); m.x = y` is
  embedded as building a node that copies every field of `self` except `x`.
* Go panics — the hash-collision abort in `setLowLevel` and the defensive
  structural-impossibility abort in `deleteLeftmost` — are embedded as
  `Except`/`Option` failure values: `setLowLevel` returns
  `Except (String × String) SMap` whose error carries the two colliding keys
  in the order they appear in the Go panic message, and `deleteLeftmost` /
  `deleteLowLevel` return `none` exactly where the Go code would panic.
* `lookupLowLevel` in the source reads `return nil, false` for a miss (a
  remnant of the generic `Any`-valued template); for the string-valued map the
  zero value `""` is used, matching the spec's concrete scenarios.
* Modelled from the spec: the constants `childCount` and `shiftSize` and the
  hash function `hashKey` are not part of `src/` (the spec treats the hash
  provider as an external collaborator and the constants as build-time
  choices with `childCount = 2^shiftSize`).  We fix the representative
  instantiation `shiftSize = 3`, `childCount = 8` and pass the hash function
  explicitly as a parameter `hashKey : String → Nat` to the operations that
  consult it; no property below depends on the particular values.
* Machine integers: the digest is only ever compared for equality, reduced
  `% childCount` and shifted right, so a `uint64` digest is embedded as `Nat`
  (no overflow can occur; only the external hash provider is obliged to
  produce 64-bit values).  The `count` field is a Go `int` that the code keeps
  nonnegative, embedded as `Nat`.
-/

/-- Modelled from the spec: bits of digest consumed per tree level (`shiftSize`
in the Go package, defined outside `src/`); fixed representative value. -/
def shiftSize : Nat := 3

/-- Modelled from the spec: branching factor, `childCount = 2^shiftSize`. -/
def childCount : Nat := 2 ^ shiftSize

theorem childCount_pos : 0 < childCount := by decide

/-- The tree node of `string_map.go`: `count`, `hash`, `key`, `value` and a
fixed-size child array.  `nil` is the shared sentinel `nilMap` (empty map /
empty subtree). -/
inductive SMap : Type where
  | nil : SMap
  | node (count : Nat) (hash : Nat) (key : String) (value : String)
      (children : Fin childCount → SMap) : SMap

/-- Go `Size`: returns the stored `count` field (the sentinel's zero-valued
struct has `count = 0`). -/
def SMap.Size : SMap → Nat
  | .nil => 0
  | .node c _ _ _ _ => c

/-- Go `IsNil`: identity comparison against the sentinel. -/
def SMap.IsNil : SMap → Bool
  | .nil => true
  | .node _ _ _ _ _ => false

/-- Go `isLeaf`: a node is a leaf iff its subtree size is 1. -/
def SMap.isLeaf (m : SMap) : Bool := m.Size == 1

/-- Go `subtreeCount`: the number of non-sentinel child subtrees. -/
def SMap.subtreeCount : SMap → Nat
  | .nil => 0
  | .node _ _ _ _ f => (List.ofFn (fun j => if (f j).IsNil then 0 else 1)).sum

/-- Field accessors used when a node is cloned wholesale (the zero values on
the sentinel match the Go zero-valued struct). -/
def SMap.hashField : SMap → Nat
  | .nil => 0
  | .node _ h _ _ _ => h

/-- Key field of a node (`""` on the sentinel's zero-valued struct). -/
def SMap.keyField : SMap → String
  | .nil => ""
  | .node _ _ k _ _ => k

/-- Value field of a node (`""` on the sentinel's zero-valued struct). -/
def SMap.valueField : SMap → String
  | .nil => ""
  | .node _ _ _ v _ => v

/-- Go `recalculateCount`: recompute a node's `count` as the sum of the child
sizes plus one for the node itself. -/
def recalculateCount : SMap → SMap
  | .nil => .nil
  | .node _ h k v f =>
      .node ((List.ofFn (fun j => (f j).Size)).foldl (· + ·) 0 + 1) h k v f

/-- Child slot selected by a partial hash: `partialHash % childCount`. -/
def childIdx (ph : Nat) : Fin childCount := ⟨ph % childCount, Nat.mod_lt _ childCount_pos⟩

/-- Go `setLowLevel`.  `ph` is the partial hash (`partialHash` in the source),
`hash` the full digest.  On the sentinel a fresh singleton node is built; on a
digest mismatch the recursion path-copies into child `ph % childCount` and
recounts; on a digest match with a different key the fatal collision is
raised, carrying the stored key and the new key (the order of the Go panic
message); otherwise the value is replaced on a clone. -/
def setLowLevel (self : SMap) (ph hash : Nat) (key value : String) :
    Except (String × String) SMap :=
  match self with
  | .nil => .ok (.node 1 hash key value (fun _ => .nil))
  | .node count shash skey svalue f =>
    if hash ≠ shash then
      let i := childIdx ph
      match setLowLevel (f i) (ph >>> shiftSize) hash key value with
      | .error e => .error e
      | .ok c =>
          .ok (recalculateCount (.node count shash skey svalue (Function.update f i c)))
    else if key ≠ skey then
      .error (skey, key)
    else
      .ok (.node count shash skey value f)

/-- Go `Set`: hash the key once and call `setLowLevel` with the digest as both
partial and full hash.  The hash provider is the explicit parameter
`hashKey`. -/
def SMap.Set (hashKey : String → Nat) (self : SMap) (key value : String) :
    Except (String × String) SMap :=
  setLowLevel self (hashKey key) (hashKey key) key value

/-- Go loop of `deleteLowLevel` choosing the donor child: running maximum of
child sizes over slots in order, with index and size initialised to `-1`, a
strict `>` update (so the first occurrence of the maximum wins). -/
def argmaxLoop (f : Fin childCount → SMap) : List (Fin childCount) → Int × Int → Int × Int
  | [], acc => acc
  | j :: js, acc =>
      if ((f j).Size : Int) > acc.2 then argmaxLoop f js (((j : Nat) : Int), ((f j).Size : Int))
      else argmaxLoop f js acc

/-- Donor slot index: the loop above over all slots.  The Go index is an `int`
that is always in range when the children array is nonempty; `childIdx`
converts it to `Fin childCount` (a no-op in range, see `argmaxLoop_spec`). -/
def argmaxIdx (f : Fin childCount → SMap) : Fin childCount :=
  childIdx (argmaxLoop f (List.finRange childCount) (-1, -1)).1.toNat

/-- Go loop of `deleteLeftmost` scanning for the first non-sentinel child. -/
def firstNonNil (f : Fin childCount → SMap) : List (Fin childCount) → Option (Fin childCount)
  | [] => none
  | j :: js => if (f j).IsNil then firstNonNil f js else some j

/-- Go `deleteLeftmost`: on a leaf return the node itself and the sentinel;
otherwise recurse into the first non-sentinel child, path-copying.  `none`
models the defensive Go panic (non-leaf with no non-sentinel child, which also
covers the sentinel itself: `isLeaf` is false on it and all its children are
the sentinel). -/
def deleteLeftmost (m : SMap) : Option (SMap × SMap) :=
  match m with
  | .nil => none
  | self@(.node count hash key value f) =>
    if self.isLeaf then some (self, .nil)
    else
      match firstNonNil f (List.finRange childCount) with
      | none => none
      | some i =>
        match deleteLeftmost (f i) with
        | none => none
        | some (deleted, child) =>
            some (deleted, recalculateCount (.node count hash key value (Function.update f i child)))

/-- Go `deleteLowLevel`.  Returns the new subtree and the `found` flag; `none`
models a panic escaping from `deleteLeftmost`.  On the digest-matching node:
a leaf is replaced by the sentinel; otherwise the node is replaced by the
leftmost node extracted from its largest child subtree — that node is cloned,
all its child slots are overwritten (the donor slot with the donor's remaining
tree, every other slot from the node being deleted), and the count is
recalculated. -/
def deleteLowLevel (self : SMap) (ph hash : Nat) : Option (SMap × Bool) :=
  match self with
  | .nil => some (.nil, false)
  | self@(.node count shash skey svalue f) =>
    if hash ≠ shash then
      let i := childIdx ph
      match deleteLowLevel (f i) (ph >>> shiftSize) hash with
      | none => none
      | some (child, found) =>
        if !found then some (self, false)
        else some (recalculateCount (.node count shash skey svalue (Function.update f i child)), true)
    else if self.isLeaf then
      some (.nil, true)
    else
      let i := argmaxIdx f
      match deleteLeftmost (f i) with
      | none => none
      | some (replacement, child) =>
          some (recalculateCount
            (.node replacement.Size replacement.hashField replacement.keyField
              replacement.valueField (Function.update f i child)), true)

/-- Go `Delete`: hash the key once, run `deleteLowLevel`, drop the `found`
flag. -/
def SMap.Delete (hashKey : String → Nat) (m : SMap) (key : String) : Option SMap :=
  (deleteLowLevel m (hashKey key) (hashKey key)).map Prod.fst

/-- Go `lookupLowLevel`: follow the digest chunks; a sentinel means absent
(value `""`, the string zero value), a digest match returns the stored
value. -/
def lookupLowLevel (self : SMap) (ph hash : Nat) : String × Bool :=
  match self with
  | .nil => ("", false)
  | .node _ shash _ svalue f =>
    if hash ≠ shash then
      lookupLowLevel (f (childIdx ph)) (ph >>> shiftSize) hash
    else
      (svalue, true)

/-- Go `Lookup`: hash the key once and call `lookupLowLevel`. -/
def SMap.Lookup (hashKey : String → Nat) (m : SMap) (key : String) : String × Bool :=
  lookupLowLevel m (hashKey key) (hashKey key)

/-- Go `NewStringMap`: the shared empty sentinel. -/
def NewStringMap : SMap := .nil

/-- Go `ForEach`, embedded as the list of `(key, value)` pairs passed to the
visitor in visit order: the node itself first, then the non-sentinel children
in slot order. -/
def visitList : SMap → List (String × String)
  | .nil => []
  | .node _ _ k v f =>
      (k, v) :: (List.ofFn (fun j => if (f j).IsNil then [] else visitList (f j))).flatten

/-- Go `Keys`: allocate an array of length `Size` and fill it from `ForEach`
with a post-incremented index.  Writing past the end is an index panic
(`none`); if fewer keys are visited the remaining slots keep the zero value
`""`. -/
def SMap.Keys (m : SMap) : Option (List String) :=
  let ks := (visitList m).map Prod.fst
  if ks.length ≤ m.Size then some (ks ++ List.replicate (m.Size - ks.length) "") else none

/-- Iterated `Set` from a list of key/value pairs (first component is the
key), used to state the `n` distinct-key inserts property. -/
def setAll (hashKey : String → Nat) (m : SMap) : List (String × String) →
    Except (String × String) SMap
  | [] => .ok m
  | (k, v) :: ps =>
    match m.Set hashKey k v with
    | .error e => .error e
    | .ok m' => setAll hashKey m' ps

/-! ## Abstraction: the entries stored in a tree -/

/-- Entry of the map: full digest, key and value of one node. -/
abbrev Entry := Nat × String × String

/-- All `(hash, key, value)` triples stored in a subtree, root first, children
in slot order. -/
def entriesOf : SMap → List Entry
  | .nil => []
  | .node _ h k v f => (h, k, v) :: (List.ofFn (fun j => entriesOf (f j))).flatten

/-- The abstract contents of a map: its entries as a multiset. -/
def entriesMS (m : SMap) : Multiset Entry := (entriesOf m : Multiset Entry)

theorem coe_flatten {α : Type _} (L : List (List α)) :
    Multiset.ofList L.flatten = (L.map Multiset.ofList).sum := by
  induction L with
  | nil => rfl
  | cons x xs ih =>
      show Multiset.ofList (x ++ xs.flatten) = _
      rw [← Multiset.coe_add, List.map_cons, List.sum_cons, ih]

theorem entriesMS_nil : entriesMS .nil = 0 := rfl

theorem entriesMS_node (c h : Nat) (k v : String) (f : Fin childCount → SMap) :
    entriesMS (.node c h k v f) = (h, k, v) ::ₘ ∑ j : Fin childCount, entriesMS (f j) := by
  show Multiset.ofList ((h, k, v) :: (List.ofFn fun j => entriesOf (f j)).flatten) = _
  rw [show ∀ (a : Entry) (l : List Entry), Multiset.ofList (a :: l) = a ::ₘ Multiset.ofList l
        from fun _ _ => rfl,
      coe_flatten, List.map_ofFn, List.sum_ofFn]
  rfl

theorem mem_entriesMS {e : Entry} {m : SMap} : e ∈ entriesMS m ↔ e ∈ entriesOf m :=
  Multiset.mem_coe

theorem recalc_node (c h : Nat) (k v : String) (f : Fin childCount → SMap) :
    recalculateCount (.node c h k v f) = .node ((∑ j : Fin childCount, (f j).Size) + 1) h k v f := by
  show SMap.node ((List.ofFn fun j => (f j).Size).foldl (· + ·) 0 + 1) h k v f = _
  rw [← List.sum_eq_foldl, List.sum_ofFn]

theorem sum_update {M : Type _} [AddCommMonoid M] {n : Nat} (g : Fin n → M) (i : Fin n) (b : M) :
    (∑ j, Function.update g i b j) + g i = (∑ j, g j) + b := by
  classical
  rw [Finset.sum_update_of_mem (Finset.mem_univ i)]
  rw [Finset.sdiff_singleton_eq_erase]
  have h2 : ∑ j, g j = g i + ∑ x ∈ Finset.univ.erase i, g x :=
    (Finset.add_sum_erase _ _ (Finset.mem_univ i)).symm
  rw [h2]
  abel

theorem card_finsum {ι α : Type _} (s : Finset ι) (F : ι → Multiset α) :
    Multiset.card (∑ j ∈ s, F j) = ∑ j ∈ s, Multiset.card (F j) := by
  classical
  induction s using Finset.induction_on with
  | empty => simp
  | insert hx ih => rw [Finset.sum_insert hx, Finset.sum_insert hx, Multiset.card_add, ih]

/-! ## Well-formedness invariant

`WF g m` says the subtree `m` is structurally sound when reached with the
digest-to-partial-hash view `g` (at the root `g` is the identity; each level
down composes a right shift by `shiftSize`):

* every node's stored `count` is one plus the sum of its children's sizes
  (the invariant `recalculateCount` maintains);
* every entry of child slot `j` has a digest whose partial hash at this depth
  selects slot `j`, and differs from the digest stored at this node. -/
inductive WF : (Nat → Nat) → SMap → Prop where
  | nil (g : Nat → Nat) : WF g .nil
  | node (g : Nat → Nat) (c h : Nat) (k v : String) (f : Fin childCount → SMap)
      (hcount : c = (∑ j : Fin childCount, (f j).Size) + 1)
      (hch : ∀ j, WF (fun H => g H >>> shiftSize) (f j))
      (hpos : ∀ j, ∀ e ∈ entriesOf (f j), childIdx (g e.1) = j ∧ e.1 ≠ h) :
      WF g (.node c h k v f)

theorem WF.size_eq_card {g : Nat → Nat} {m : SMap} (w : WF g m) :
    m.Size = Multiset.card (entriesMS m) := by
  induction w with
  | nil => rfl
  | node g c h k v f hcount hch hpos ih =>
      rw [entriesMS_node]
      show c = _
      rw [Multiset.card_cons, card_finsum, hcount]
      congr 1
      exact Finset.sum_congr rfl (fun j _ => ih j)

theorem mem_entriesOf_node {e : Entry} {c h : Nat} {k v : String} {f : Fin childCount → SMap} :
    e ∈ entriesOf (.node c h k v f) ↔ e = (h, k, v) ∨ ∃ j, e ∈ entriesOf (f j) := by
  rw [← mem_entriesMS, entriesMS_node, Multiset.mem_cons]
  simp [Multiset.mem_sum, mem_entriesMS]

theorem root_mem_entriesOf {c h : Nat} {k v : String} {f : Fin childCount → SMap} :
    ((h, k, v) : Entry) ∈ entriesOf (.node c h k v f) :=
  mem_entriesOf_node.mpr (Or.inl rfl)

/-- Lookup of a digest that is present: it follows the branch indices recorded
by the position invariant and reaches the unique node carrying that digest. -/
theorem lookup_found {g : Nat → Nat} {m : SMap} (w : WF g m) :
    ∀ H : Nat, ∀ k v : String, (H, k, v) ∈ entriesOf m →
      lookupLowLevel m (g H) H = (v, true) := by
  induction w with
  | nil => intro H k v he; cases he
  | node g c h k0 v0 f hcount hch hpos ih =>
      intro H k v he
      rcases mem_entriesOf_node.mp he with he | ⟨j, hj⟩
      · obtain ⟨rfl, rfl, rfl⟩ : H = h ∧ k = k0 ∧ v = v0 := by
          injection he with h1 h2; injection h2 with h2 h3; exact ⟨h1, h2, h3⟩
        simp [lookupLowLevel]
      · have hji := hpos j _ hj
        have hne : H ≠ h := hji.2
        have hidx : childIdx (g H) = j := hji.1
        simp only [lookupLowLevel, if_pos hne, hidx]
        exact ih j H k v hj

/-- Lookup of a digest that occurs nowhere in the tree reaches the sentinel. -/
theorem lookup_absent {g : Nat → Nat} {m : SMap} (w : WF g m) :
    ∀ H : Nat, (∀ e ∈ entriesOf m, e.1 ≠ H) →
      lookupLowLevel m (g H) H = ("", false) := by
  induction w with
  | nil => intro H _; rfl
  | node g c h k0 v0 f hcount hch hpos ih =>
      intro H habs
      have hne : H ≠ h := Ne.symm (habs (h, k0, v0) root_mem_entriesOf)
      simp only [lookupLowLevel, if_pos hne]
      exact ih (childIdx (g H)) H
        (fun e he => habs e (mem_entriesOf_node.mpr (Or.inr ⟨_, he⟩)))

theorem apply_update_entriesMS (f : Fin childCount → SMap) (i : Fin childCount) (c : SMap)
    (j : Fin childCount) :
    entriesMS (Function.update f i c j) = Function.update (fun j => entriesMS (f j)) i (entriesMS c) j :=
  Function.apply_update (fun _ t => entriesMS t) f i c j

theorem sum_entriesMS_update (f : Fin childCount → SMap) (i : Fin childCount) (c : SMap) :
    (∑ j : Fin childCount, entriesMS (Function.update f i c j)) + entriesMS (f i) =
      (∑ j : Fin childCount, entriesMS (f j)) + entriesMS c := by
  rw [Finset.sum_congr rfl (fun j _ => apply_update_entriesMS f i c j)]
  exact sum_update (fun j => entriesMS (f j)) i (entriesMS c)

theorem apply_update_size (f : Fin childCount → SMap) (i : Fin childCount) (c : SMap)
    (j : Fin childCount) :
    (Function.update f i c j).Size = Function.update (fun j => (f j).Size) i c.Size j :=
  Function.apply_update (fun _ t => SMap.Size t) f i c j

/-- Inserting a digest that is not in the tree: `setLowLevel` succeeds,
preserves well-formedness, and adds exactly the new entry. -/
theorem set_fresh {g : Nat → Nat} {m : SMap} (w : WF g m) :
    ∀ (H : Nat) (K V : String), (∀ e ∈ entriesOf m, e.1 ≠ H) →
      ∃ m', setLowLevel m (g H) H K V = .ok m' ∧ WF g m' ∧
        entriesMS m' = (H, K, V) ::ₘ entriesMS m := by
  induction w with
  | nil =>
      intro H K V _
      refine ⟨.node 1 H K V (fun _ => .nil), rfl, ?_, ?_⟩
      · exact WF.node _ 1 H K V _ (by simp [SMap.Size]) (fun _ => WF.nil _)
          (fun j e he => absurd he (by simp [entriesOf]))
      · rw [entriesMS_node]
        have hz : (∑ j : Fin childCount, entriesMS ((fun _ => SMap.nil) j)) = 0 := by
          simp [entriesMS_nil]
        rw [hz]
        rfl
  | node g c h k0 v0 f hcount hch hpos ih =>
      intro H K V habs
      have hne : H ≠ h := Ne.symm (habs (h, k0, v0) root_mem_entriesOf)
      obtain ⟨c', hc', wc', ec'⟩ := ih (childIdx (g H)) H K V
        (fun e he => habs e (mem_entriesOf_node.mpr (Or.inr ⟨_, he⟩)))
      refine ⟨recalculateCount (.node c h k0 v0 (Function.update f (childIdx (g H)) c')),
        ?_, ?_, ?_⟩
      · simp only [setLowLevel, if_pos hne, hc']
      · rw [recalc_node]
        refine WF.node _ _ h k0 v0 _ rfl ?_ ?_
        · intro j
          by_cases hj : j = childIdx (g H)
          · subst hj; rw [Function.update_same]; exact wc'
          · rw [Function.update_noteq hj]; exact hch j
        · intro j e he
          by_cases hj : j = childIdx (g H)
          · subst hj
            rw [Function.update_same] at he
            have : e ∈ entriesMS c' := mem_entriesMS.mpr he
            rw [ec', Multiset.mem_cons] at this
            rcases this with rfl | hmem
            · exact ⟨rfl, hne⟩
            · exact hpos _ e (mem_entriesMS.mp hmem)
          · rw [Function.update_noteq hj] at he
            exact hpos j e he
      · rw [recalc_node, entriesMS_node, entriesMS_node]
        have hupd := sum_entriesMS_update f (childIdx (g H)) c'
        rw [ec'] at hupd
        have hsum : (∑ j : Fin childCount, entriesMS (Function.update f (childIdx (g H)) c' j)) =
            ((H, K, V) : Entry) ::ₘ ∑ j : Fin childCount, entriesMS (f j) := by
          have h2 : (∑ j : Fin childCount, entriesMS (Function.update f (childIdx (g H)) c' j)) +
              entriesMS (f (childIdx (g H))) =
              (((H, K, V) : Entry) ::ₘ ∑ j : Fin childCount, entriesMS (f j)) +
                entriesMS (f (childIdx (g H))) := by
            rw [hupd, ← Multiset.singleton_add, ← Multiset.singleton_add]
            abel
          exact add_right_cancel h2
        rw [hsum, Multiset.cons_swap]

/-- Updating the value of a digest already present (with the same key):
`setLowLevel` succeeds, preserves well-formedness, and replaces exactly that
entry's value. -/
theorem set_update {g : Nat → Nat} {m : SMap} (w : WF g m) :
    ∀ (H : Nat) (K V V0 : String), (H, K, V0) ∈ entriesOf m →
      ∃ m', setLowLevel m (g H) H K V = .ok m' ∧ WF g m' ∧
        entriesMS m' + {(H, K, V0)} = entriesMS m + {(H, K, V)} := by
  induction w with
  | nil => intro H K V V0 he; cases he
  | node g c h k0 v0 f hcount hch hpos ih =>
      intro H K V V0 he
      rcases mem_entriesOf_node.mp he with he | ⟨j, hj⟩
      · obtain ⟨rfl, rfl, rfl⟩ : H = h ∧ K = k0 ∧ V0 = v0 := by
          injection he with h1 h2; injection h2 with h2 h3; exact ⟨h1, h2, h3⟩
        refine ⟨.node c H K V f, ?_, ?_, ?_⟩
        · simp only [setLowLevel, if_neg (fun hcon : ¬ H = H => hcon rfl),
            if_neg (fun hcon : ¬ K = K => hcon rfl)]
        · exact WF.node _ c H K V f hcount hch hpos
        · rw [entriesMS_node, entriesMS_node, ← Multiset.singleton_add,
            ← Multiset.singleton_add]
          abel
      · have hji := hpos j _ hj
        have hne : H ≠ h := hji.2
        have hidx : childIdx (g H) = j := hji.1
        subst hidx
        obtain ⟨c', hc', wc', ec'⟩ := ih _ H K V V0 hj
        refine ⟨recalculateCount (.node c h k0 v0 (Function.update f (childIdx (g H)) c')),
          ?_, ?_, ?_⟩
        · simp only [setLowLevel, if_pos hne, hc']
        · rw [recalc_node]
          refine WF.node _ _ h k0 v0 _ rfl ?_ ?_
          · intro j'
            by_cases hj' : j' = childIdx (g H)
            · subst hj'; rw [Function.update_same]; exact wc'
            · rw [Function.update_noteq hj']; exact hch j'
          · intro j' e he'
            by_cases hj' : j' = childIdx (g H)
            · subst hj'
              rw [Function.update_same] at he'
              have hms : e ∈ entriesMS c' := mem_entriesMS.mpr he'
              have : e ∈ entriesMS c' + ({(H, K, V0)} : Multiset Entry) :=
                Multiset.mem_add.mpr (Or.inl hms)
              rw [ec'] at this
              rcases Multiset.mem_add.mp this with hold | hnew
              · exact hpos _ e (mem_entriesMS.mp hold)
              · have : e = (H, K, V) := by simpa using hnew
                subst this
                exact ⟨rfl, hne⟩
            · rw [Function.update_noteq hj'] at he'
              exact hpos j' e he'
        · rw [recalc_node, entriesMS_node, entriesMS_node]
          have hupd := sum_entriesMS_update f (childIdx (g H)) c'
          have key : ((∑ j' : Fin childCount,
              entriesMS (Function.update f (childIdx (g H)) c' j')) + {(H, K, V0)}) +
                entriesMS (f (childIdx (g H))) =
              ((∑ j' : Fin childCount, entriesMS (f j')) + {(H, K, V)}) +
                entriesMS (f (childIdx (g H))) := by
            calc ((∑ j' : Fin childCount,
                entriesMS (Function.update f (childIdx (g H)) c' j')) + {(H, K, V0)}) +
                  entriesMS (f (childIdx (g H))) =
                ((∑ j' : Fin childCount, entriesMS (Function.update f (childIdx (g H)) c' j')) +
                  entriesMS (f (childIdx (g H)))) + {(H, K, V0)} := by abel
              _ = ((∑ j' : Fin childCount, entriesMS (f j')) + entriesMS c') + {(H, K, V0)} := by
                  rw [hupd]
              _ = (∑ j' : Fin childCount, entriesMS (f j')) +
                  (entriesMS c' + {(H, K, V0)}) := by abel
              _ = (∑ j' : Fin childCount, entriesMS (f j')) +
                  (entriesMS (f (childIdx (g H))) + {(H, K, V)}) := by rw [ec']
              _ = ((∑ j' : Fin childCount, entriesMS (f j')) + {(H, K, V)}) +
                  entriesMS (f (childIdx (g H))) := by abel
          have hmain := add_right_cancel key
          rw [← Multiset.singleton_add, ← Multiset.singleton_add]
          calc ({(h, k0, v0)} + ∑ j' : Fin childCount,
              entriesMS (Function.update f (childIdx (g H)) c' j')) + {(H, K, V0)} =
              {(h, k0, v0)} + ((∑ j' : Fin childCount,
                entriesMS (Function.update f (childIdx (g H)) c' j')) + {(H, K, V0)}) := by abel
            _ = {(h, k0, v0)} + ((∑ j' : Fin childCount, entriesMS (f j')) + {(H, K, V)}) := by
                rw [hmain]
            _ = ({(h, k0, v0)} + ∑ j' : Fin childCount, entriesMS (f j')) + {(H, K, V)} := by abel

/-- Setting a key whose digest is already bound to a different key: the fatal
collision is raised, carrying the stored key and the new key. -/
theorem set_error {g : Nat → Nat} {m : SMap} (w : WF g m) :
    ∀ (H : Nat) (K V K1 V1 : String), (H, K1, V1) ∈ entriesOf m → K ≠ K1 →
      setLowLevel m (g H) H K V = .error (K1, K) := by
  induction w with
  | nil => intro H K V K1 V1 he _; cases he
  | node g c h k0 v0 f hcount hch hpos ih =>
      intro H K V K1 V1 he hK
      rcases mem_entriesOf_node.mp he with he | ⟨j, hj⟩
      · obtain ⟨rfl, rfl, rfl⟩ : H = h ∧ K1 = k0 ∧ V1 = v0 := by
          injection he with h1 h2; injection h2 with h2 h3; exact ⟨h1, h2, h3⟩
        simp only [setLowLevel, if_neg (fun hcon : ¬ H = H => hcon rfl), if_pos hK]
      · have hji := hpos j _ hj
        have hne : H ≠ h := hji.2
        have hidx : childIdx (g H) = j := hji.1
        subst hidx
        simp only [setLowLevel, if_pos hne, ih _ H K V K1 V1 hj hK]

/-- The digests stored in a subtree, as a multiset. -/
def hashesMS (m : SMap) : Multiset Nat := (entriesMS m).map Prod.fst

theorem map_finsum {ι α β : Type _} (s : Finset ι) (F : ι → Multiset α) (g : α → β) :
    (∑ j ∈ s, F j).map g = ∑ j ∈ s, (F j).map g := by
  classical
  induction s using Finset.induction_on with
  | empty => simp
  | insert hx ih => rw [Finset.sum_insert hx, Finset.sum_insert hx, Multiset.map_add, ih]

theorem hashesMS_node (c h : Nat) (k v : String) (f : Fin childCount → SMap) :
    hashesMS (.node c h k v f) = h ::ₘ ∑ j : Fin childCount, hashesMS (f j) := by
  show (entriesMS (.node c h k v f)).map Prod.fst = _
  rw [entriesMS_node, Multiset.map_cons, map_finsum]
  rfl

theorem mem_hashesMS {H : Nat} {m : SMap} :
    H ∈ hashesMS m ↔ ∃ e ∈ entriesOf m, e.1 = H := by
  constructor
  · intro hm
    obtain ⟨e, he, rfl⟩ := Multiset.mem_map.mp hm
    exact ⟨e, mem_entriesMS.mp he, rfl⟩
  · rintro ⟨e, he, rfl⟩
    exact Multiset.mem_map.mpr ⟨e, mem_entriesMS.mpr he, rfl⟩

/-- Digest uniqueness: in a well-formed tree every digest occurs at most
once. -/
theorem count_hashesMS_le_one {g : Nat → Nat} {m : SMap} (w : WF g m) :
    ∀ H : Nat, Multiset.count H (hashesMS m) ≤ 1 := by
  induction w with
  | nil => intro H; simp [hashesMS, entriesMS_nil]
  | node g c h k0 v0 f hcount hch hpos ih =>
      intro H
      rw [hashesMS_node, Multiset.count_cons, Multiset.count_sum']
      by_cases hH : H = h
      · subst hH
        have hz : ∀ j ∈ (Finset.univ : Finset (Fin childCount)),
            Multiset.count H (hashesMS (f j)) = 0 := by
          intro j _
          rw [Multiset.count_eq_zero]
          intro hmem
          obtain ⟨e, he, hfst⟩ := mem_hashesMS.mp hmem
          exact (hpos j e he).2 hfst
        rw [Finset.sum_congr rfl hz]
        simp
      · rw [if_neg hH]
        have hsingle : (∑ j : Fin childCount, Multiset.count H (hashesMS (f j))) =
            Multiset.count H (hashesMS (f (childIdx (g H)))) := by
          refine Finset.sum_eq_single (childIdx (g H)) ?_ ?_
          · intro j _ hj
            rw [Multiset.count_eq_zero]
            intro hmem
            obtain ⟨e, he, hfst⟩ := mem_hashesMS.mp hmem
            exact hj (hfst ▸ (hpos j e he).1).symm
          · intro hcon; exact absurd (Finset.mem_univ _) hcon
        rw [hsingle]
        simpa using ih (childIdx (g H)) H

theorem IsNil_false_iff {m : SMap} : m.IsNil = false ↔ m ≠ .nil := by
  cases m <;> simp [SMap.IsNil]

theorem size_pos_of_wf {g : Nat → Nat} {m : SMap} (w : WF g m) (h : m ≠ .nil) :
    0 < m.Size := by
  cases w with
  | nil => exact absurd rfl h
  | node g c h k v f hcount hch hpos => show 0 < c; omega

theorem nil_of_size_zero {g : Nat → Nat} {m : SMap} (w : WF g m) (h : m.Size = 0) :
    m = .nil := by
  by_contra hne
  have := size_pos_of_wf w hne
  omega

theorem entriesMS_eq_zero {g : Nat → Nat} {m : SMap} (w : WF g m) (h : m.Size = 0) :
    entriesMS m = 0 := by
  rw [nil_of_size_zero w h]; rfl

theorem firstNonNil_spec (f : Fin childCount → SMap) :
    ∀ l : List (Fin childCount), (∃ j ∈ l, (f j).IsNil = false) →
      ∃ i, firstNonNil f l = some i ∧ (f i).IsNil = false := by
  intro l
  induction l with
  | nil => rintro ⟨j, hj, _⟩; cases hj
  | cons x xs ih =>
      rintro ⟨j, hj, hnil⟩
      by_cases hx : (f x).IsNil
      · have hjx : j ∈ xs := by
          rcases List.mem_cons.mp hj with rfl | hjs
          · rw [hnil] at hx; cases hx
          · exact hjs
        obtain ⟨i, hi, hini⟩ := ih ⟨j, hjx, hnil⟩
        exact ⟨i, by simp [firstNonNil, hx, hi], hini⟩
      · exact ⟨x, by simp [firstNonNil, hx], by simpa using hx⟩

theorem argmaxLoop_spec (f : Fin childCount → SMap) :
    ∀ (l : List (Fin childCount)) (acc : Int × Int),
      (∀ j ∈ l, ((f j).Size : Int) ≤ (argmaxLoop f l acc).2) ∧
      acc.2 ≤ (argmaxLoop f l acc).2 ∧
      (argmaxLoop f l acc = acc ∨
        ∃ j ∈ l, argmaxLoop f l acc = (((j : Nat) : Int), ((f j).Size : Int))) := by
  intro l
  induction l with
  | nil => exact fun acc => ⟨by simp, le_refl _, Or.inl rfl⟩
  | cons x xs ih =>
      intro acc
      by_cases hx : ((f x).Size : Int) > acc.2
      · have heq : argmaxLoop f (x :: xs) acc =
            argmaxLoop f xs (((x : Nat) : Int), ((f x).Size : Int)) := by
          simp [argmaxLoop, hx]
        obtain ⟨h1, h2, h3⟩ := ih (((x : Nat) : Int), ((f x).Size : Int))
        refine ⟨?_, ?_, ?_⟩
        · intro j hj
          rcases List.mem_cons.mp hj with rfl | hjs
          · rw [heq]; exact h2
          · rw [heq]; exact h1 j hjs
        · rw [heq]; exact le_trans (le_of_lt hx) h2
        · rw [heq]
          rcases h3 with h3 | ⟨j, hj, h3⟩
          · exact Or.inr ⟨x, List.mem_cons_self _ _, h3⟩
          · exact Or.inr ⟨j, List.mem_cons_of_mem _ hj, h3⟩
      · have heq : argmaxLoop f (x :: xs) acc = argmaxLoop f xs acc := by
          simp [argmaxLoop, hx]
        obtain ⟨h1, h2, h3⟩ := ih acc
        refine ⟨?_, by rw [heq]; exact h2, ?_⟩
        · intro j hj
          rcases List.mem_cons.mp hj with rfl | hjs
          · rw [heq]; exact le_trans (not_lt.mp hx) h2
          · rw [heq]; exact h1 j hjs
        · rw [heq]
          rcases h3 with h3 | ⟨j, hj, h3⟩
          · exact Or.inl h3
          · exact Or.inr ⟨j, List.mem_cons_of_mem _ hj, h3⟩

/-- The donor slot holds a child of maximal size. -/
theorem argmaxIdx_spec (f : Fin childCount → SMap) :
    ∀ j : Fin childCount, (f j).Size ≤ (f (argmaxIdx f)).Size := by
  obtain ⟨h1, _, h3⟩ := argmaxLoop_spec f (List.finRange childCount) (-1, -1)
  rcases h3 with h3 | ⟨j0, _, h3⟩
  · exfalso
    have h0 := h1 ⟨0, childCount_pos⟩ (List.mem_finRange _)
    rw [h3] at h0
    exact absurd (le_trans (Int.natCast_nonneg _) h0) (by norm_num)
  · intro j
    have hj := h1 j (List.mem_finRange j)
    rw [h3] at hj
    have hidx : argmaxIdx f = j0 := by
      rw [argmaxIdx, h3]
      apply Fin.ext
      show ((((j0 : Nat) : Int)).toNat) % childCount = (j0 : Nat)
      rw [Int.toNat_natCast]
      exact Nat.mod_eq_of_lt j0.isLt
    rw [hidx]
    have hj' : ((f j).Size : Int) ≤ ((f j0).Size : Int) := hj
    exact_mod_cast hj'

/-- Go `deleteLeftmost` on a well-formed non-sentinel tree: it succeeds (the
defensive panic is unreachable), removes exactly one entry, the removed node
carries that entry's fields, and the remaining tree is well-formed. -/
theorem deleteLeftmost_spec {g : Nat → Nat} {m : SMap} (w : WF g m) :
    m ≠ .nil →
      ∃ del rest e, deleteLeftmost m = some (del, rest) ∧ WF g rest ∧
        e ∈ entriesOf m ∧ entriesMS rest + {e} = entriesMS m ∧
        del.hashField = e.1 ∧ del.keyField = e.2.1 ∧ del.valueField = e.2.2 := by
  induction w with
  | nil => intro hcon; exact absurd rfl hcon
  | node g c h k0 v0 f hcount hch hpos ih =>
      intro _
      by_cases hc : c = 1
      · subst hc
        have hz : (∑ j : Fin childCount, entriesMS (f j)) = 0 := by
          apply Finset.sum_eq_zero
          intro j _
          refine entriesMS_eq_zero (hch j) ?_
          have h0 : (∑ j : Fin childCount, (f j).Size) = 0 := by omega
          exact (Finset.sum_eq_zero_iff.mp h0) j (Finset.mem_univ j)
        refine ⟨.node 1 h k0 v0 f, .nil, (h, k0, v0), ?_, WF.nil _, root_mem_entriesOf,
          ?_, rfl, rfl, rfl⟩
        · simp [deleteLeftmost, SMap.isLeaf, SMap.Size]
        · rw [entriesMS_node, hz]
          show (0 : Multiset Entry) + {(h, k0, v0)} = (h, k0, v0) ::ₘ 0
          simp
      · have hnz : ∃ j : Fin childCount, (f j).Size ≠ 0 := by
          by_contra hall
          push_neg at hall
          have : (∑ j : Fin childCount, (f j).Size) = 0 :=
            Finset.sum_eq_zero (fun j _ => hall j)
          omega
        obtain ⟨j0, hj0⟩ := hnz
        have hj0' : (f j0).IsNil = false := by
          rw [IsNil_false_iff]
          intro hnil; rw [hnil] at hj0; exact hj0 rfl
        obtain ⟨i, hfn, hini⟩ :=
          firstNonNil_spec f (List.finRange childCount) ⟨j0, List.mem_finRange _, hj0'⟩
        have hfine : f i ≠ .nil := IsNil_false_iff.mp hini
        obtain ⟨del, rest, e, hdl, wrest, hemem, heq, hf1, hf2, hf3⟩ := ih i hfine
        refine ⟨del, recalculateCount (.node c h k0 v0 (Function.update f i rest)), e,
          ?_, ?_, mem_entriesOf_node.mpr (Or.inr ⟨i, hemem⟩), ?_, hf1, hf2, hf3⟩
        · have hleaf : (SMap.node c h k0 v0 f).isLeaf = false := by
            simp [SMap.isLeaf, SMap.Size, hc]
          simp [deleteLeftmost, hleaf, hfn, hdl]
        · rw [recalc_node]
          refine WF.node _ _ h k0 v0 _ rfl ?_ ?_
          · intro j
            by_cases hj : j = i
            · subst hj; rw [Function.update_same]; exact wrest
            · rw [Function.update_noteq hj]; exact hch j
          · intro j e' he'
            by_cases hj : j = i
            · subst hj
              rw [Function.update_same] at he'
              have hmem : e' ∈ entriesMS (f j) := by
                rw [← heq]
                exact Multiset.mem_add.mpr (Or.inl (mem_entriesMS.mpr he'))
              exact hpos j e' (mem_entriesMS.mp hmem)
            · rw [Function.update_noteq hj] at he'
              exact hpos j e' he'
        · rw [recalc_node, entriesMS_node, entriesMS_node]
          have hupd := sum_entriesMS_update f i rest
          have key : ((∑ j : Fin childCount, entriesMS (Function.update f i rest j)) + {e}) +
              entriesMS (f i) =
              (∑ j : Fin childCount, entriesMS (f j)) + entriesMS (f i) := by
            calc ((∑ j : Fin childCount, entriesMS (Function.update f i rest j)) + {e}) +
                entriesMS (f i) =
                ((∑ j : Fin childCount, entriesMS (Function.update f i rest j)) +
                  entriesMS (f i)) + {e} := by abel
              _ = ((∑ j : Fin childCount, entriesMS (f j)) + entriesMS rest) + {e} := by
                  rw [hupd]
              _ = (∑ j : Fin childCount, entriesMS (f j)) + (entriesMS rest + {e}) := by abel
              _ = (∑ j : Fin childCount, entriesMS (f j)) + entriesMS (f i) := by rw [heq]
          have hmain := add_right_cancel key
          rw [← Multiset.singleton_add, ← Multiset.singleton_add]
          calc ({(h, k0, v0)} +
              ∑ j : Fin childCount, entriesMS (Function.update f i rest j)) + {e} =
              {(h, k0, v0)} +
                ((∑ j : Fin childCount, entriesMS (Function.update f i rest j)) + {e}) := by abel
            _ = {(h, k0, v0)} + ∑ j : Fin childCount, entriesMS (f j) := by rw [hmain]

theorem hash_not_in_rest {g : Nat → Nat} {t rest : SMap} {d : Entry} (wt : WF g t)
    (heq : entriesMS rest + {d} = entriesMS t) :
    ∀ e' ∈ entriesOf rest, e'.1 ≠ d.1 := by
  intro e' he' hcon
  have hcnt := count_hashesMS_le_one wt d.1
  have hmap : hashesMS t = hashesMS rest + {d.1} := by
    rw [hashesMS, ← heq, Multiset.map_add]
    rfl
  rw [hmap, Multiset.count_add] at hcnt
  have h1 : Multiset.count d.1 ({d.1} : Multiset Nat) = 1 := by simp
  have h2 : 0 < Multiset.count d.1 (hashesMS rest) :=
    Multiset.count_pos.mpr (mem_hashesMS.mpr ⟨e', he', hcon⟩)
  omega

/-- Deleting a digest that is absent returns the original tree unchanged with
`found = false` (no cloning on a path that found nothing). -/
theorem delete_absent {g : Nat → Nat} {m : SMap} (w : WF g m) :
    ∀ H : Nat, (∀ e ∈ entriesOf m, e.1 ≠ H) →
      deleteLowLevel m (g H) H = some (m, false) := by
  induction w with
  | nil => intro H _; rfl
  | node g c h k0 v0 f hcount hch hpos ih =>
      intro H habs
      have hne : H ≠ h := Ne.symm (habs _ root_mem_entriesOf)
      have hrec := ih (childIdx (g H)) H
        (fun e he => habs e (mem_entriesOf_node.mpr (Or.inr ⟨_, he⟩)))
      simp [deleteLowLevel, if_pos hne, hrec]

/-- Deleting a digest that is present: `deleteLowLevel` succeeds with
`found = true`, preserves well-formedness, and removes exactly that entry. -/
theorem delete_present {g : Nat → Nat} {m : SMap} (w : WF g m) :
    ∀ (H : Nat) (K V : String), (H, K, V) ∈ entriesOf m →
      ∃ m', deleteLowLevel m (g H) H = some (m', true) ∧ WF g m' ∧
        entriesMS m' + {(H, K, V)} = entriesMS m := by
  induction w with
  | nil => intro H K V he; cases he
  | node g c h k0 v0 f hcount hch hpos ih =>
      intro H K V he
      rcases mem_entriesOf_node.mp he with he | ⟨j, hj⟩
      · obtain ⟨rfl, rfl, rfl⟩ : H = h ∧ K = k0 ∧ V = v0 := by
          injection he with h1 h2; injection h2 with h2 h3; exact ⟨h1, h2, h3⟩
        by_cases hc : c = 1
        · subst hc
          have hz : (∑ j : Fin childCount, entriesMS (f j)) = 0 := by
            apply Finset.sum_eq_zero
            intro j _
            refine entriesMS_eq_zero (hch j) ?_
            have h0 : (∑ j : Fin childCount, (f j).Size) = 0 := by omega
            exact (Finset.sum_eq_zero_iff.mp h0) j (Finset.mem_univ j)
          refine ⟨.nil, ?_, WF.nil _, ?_⟩
          · have hleaf : (SMap.node 1 H K V f).isLeaf = true := by
              simp [SMap.isLeaf, SMap.Size]
            simp [deleteLowLevel, hleaf]
          · rw [entriesMS_node, hz]
            show (0 : Multiset Entry) + {(H, K, V)} = (H, K, V) ::ₘ 0
            simp
        · have hnz : ∃ j : Fin childCount, (f j).Size ≠ 0 := by
            by_contra hall
            push_neg at hall
            have : (∑ j : Fin childCount, (f j).Size) = 0 :=
              Finset.sum_eq_zero (fun j _ => hall j)
            omega
          obtain ⟨j0, hj0⟩ := hnz
          have hsize : 1 ≤ (f (argmaxIdx f)).Size :=
            le_trans (by omega) (argmaxIdx_spec f j0)
          have hfine : f (argmaxIdx f) ≠ .nil := by
            intro hnil
            rw [hnil] at hsize
            exact absurd hsize (by simp [SMap.Size])
          obtain ⟨del, rest, ed, hdl, wrest, hedmem, heq, hf1, hf2, hf3⟩ :=
            deleteLeftmost_spec (hch (argmaxIdx f)) hfine
          have hedpos := hpos (argmaxIdx f) ed hedmem
          refine ⟨recalculateCount (.node del.Size del.hashField del.keyField del.valueField
            (Function.update f (argmaxIdx f) rest)), ?_, ?_, ?_⟩
          · have hleaf : (SMap.node c H K V f).isLeaf = false := by
              simp [SMap.isLeaf, SMap.Size, hc]
            simp [deleteLowLevel, hleaf, hdl]
          · rw [recalc_node, hf1, hf2, hf3]
            refine WF.node _ _ ed.1 ed.2.1 ed.2.2 _ rfl ?_ ?_
            · intro j'
              by_cases hj' : j' = argmaxIdx f
              · subst hj'; rw [Function.update_same]; exact wrest
              · rw [Function.update_noteq hj']; exact hch j'
            · intro j' e' he'
              by_cases hj' : j' = argmaxIdx f
              · subst hj'
                rw [Function.update_same] at he'
                have hmem : e' ∈ entriesMS (f (argmaxIdx f)) := by
                  rw [← heq]
                  exact Multiset.mem_add.mpr (Or.inl (mem_entriesMS.mpr he'))
                exact ⟨(hpos _ e' (mem_entriesMS.mp hmem)).1,
                  hash_not_in_rest (hch (argmaxIdx f)) heq e' he'⟩
              · rw [Function.update_noteq hj'] at he'
                refine ⟨(hpos j' e' he').1, ?_⟩
                intro hcon
                have h1 : childIdx (g e'.1) = j' := (hpos j' e' he').1
                have h2 : childIdx (g ed.1) = argmaxIdx f := hedpos.1
                rw [hcon, h2] at h1
                exact hj' h1.symm
          · rw [recalc_node, entriesMS_node, entriesMS_node]
            have hupd := sum_entriesMS_update f (argmaxIdx f) rest
            have heta : ((del.hashField, del.keyField, del.valueField) : Entry) = ed := by
              rw [hf1, hf2, hf3]
            rw [hf1, hf2, hf3]
            have key : (({ed} : Multiset Entry) +
                ∑ j' : Fin childCount, entriesMS (Function.update f (argmaxIdx f) rest j')) +
                  entriesMS (f (argmaxIdx f)) =
                (∑ j' : Fin childCount, entriesMS (f j')) + entriesMS (f (argmaxIdx f)) := by
              calc (({ed} : Multiset Entry) +
                  ∑ j' : Fin childCount, entriesMS (Function.update f (argmaxIdx f) rest j')) +
                    entriesMS (f (argmaxIdx f)) =
                  {ed} + ((∑ j' : Fin childCount,
                    entriesMS (Function.update f (argmaxIdx f) rest j')) +
                      entriesMS (f (argmaxIdx f))) := by abel
                _ = {ed} + ((∑ j' : Fin childCount, entriesMS (f j')) + entriesMS rest) := by
                    rw [hupd]
                _ = (∑ j' : Fin childCount, entriesMS (f j')) + (entriesMS rest + {ed}) := by
                    abel
                _ = (∑ j' : Fin childCount, entriesMS (f j')) + entriesMS (f (argmaxIdx f)) := by
                    rw [heq]
            have hmain := add_right_cancel key
            rw [← Multiset.singleton_add, ← Multiset.singleton_add]
            calc ({ed} + ∑ j' : Fin childCount,
                entriesMS (Function.update f (argmaxIdx f) rest j')) + {(H, K, V)} =
                (({ed} : Multiset Entry) + ∑ j' : Fin childCount,
                  entriesMS (Function.update f (argmaxIdx f) rest j')) + {(H, K, V)} := rfl
              _ = (∑ j' : Fin childCount, entriesMS (f j')) + {(H, K, V)} := by rw [hmain]
              _ = {(H, K, V)} + ∑ j' : Fin childCount, entriesMS (f j') := by abel
      · have hji := hpos j _ hj
        have hne : H ≠ h := hji.2
        have hidx : childIdx (g H) = j := hji.1
        subst hidx
        obtain ⟨child', hrec, wchild, echild⟩ := ih _ H K V hj
        refine ⟨recalculateCount (.node c h k0 v0 (Function.update f (childIdx (g H)) child')),
          ?_, ?_, ?_⟩
        · simp [deleteLowLevel, if_pos hne, hrec]
        · rw [recalc_node]
          refine WF.node _ _ h k0 v0 _ rfl ?_ ?_
          · intro j'
            by_cases hj' : j' = childIdx (g H)
            · subst hj'; rw [Function.update_same]; exact wchild
            · rw [Function.update_noteq hj']; exact hch j'
          · intro j' e' he'
            by_cases hj' : j' = childIdx (g H)
            · subst hj'
              rw [Function.update_same] at he'
              have hmem : e' ∈ entriesMS (f (childIdx (g H))) := by
                rw [← echild]
                exact Multiset.mem_add.mpr (Or.inl (mem_entriesMS.mpr he'))
              exact hpos _ e' (mem_entriesMS.mp hmem)
            · rw [Function.update_noteq hj'] at he'
              exact hpos j' e' he'
        · rw [recalc_node, entriesMS_node, entriesMS_node]
          have hupd := sum_entriesMS_update f (childIdx (g H)) child'
          have key : ((∑ j' : Fin childCount,
              entriesMS (Function.update f (childIdx (g H)) child' j')) + {(H, K, V)}) +
                entriesMS (f (childIdx (g H))) =
              (∑ j' : Fin childCount, entriesMS (f j')) + entriesMS (f (childIdx (g H))) := by
            calc ((∑ j' : Fin childCount,
                entriesMS (Function.update f (childIdx (g H)) child' j')) + {(H, K, V)}) +
                  entriesMS (f (childIdx (g H))) =
                ((∑ j' : Fin childCount,
                  entriesMS (Function.update f (childIdx (g H)) child' j')) +
                    entriesMS (f (childIdx (g H)))) + {(H, K, V)} := by abel
              _ = ((∑ j' : Fin childCount, entriesMS (f j')) + entriesMS child') +
                  {(H, K, V)} := by rw [hupd]
              _ = (∑ j' : Fin childCount, entriesMS (f j')) +
                  (entriesMS child' + {(H, K, V)}) := by abel
              _ = (∑ j' : Fin childCount, entriesMS (f j')) +
                  entriesMS (f (childIdx (g H))) := by rw [echild]
          have hmain := add_right_cancel key
          rw [← Multiset.singleton_add, ← Multiset.singleton_add]
          calc ({(h, k0, v0)} + ∑ j' : Fin childCount,
              entriesMS (Function.update f (childIdx (g H)) child' j')) + {(H, K, V)} =
              {(h, k0, v0)} + ((∑ j' : Fin childCount,
                entriesMS (Function.update f (childIdx (g H)) child' j')) + {(H, K, V)}) := by
                abel
            _ = {(h, k0, v0)} + ∑ j' : Fin childCount, entriesMS (f j') := by rw [hmain]

/-! ## The public interface under the reachability invariant -/

/-- Every stored entry's digest is the hash of its key — the link between the
tree and the external hash provider, maintained by the public interface. -/
def HashConsistent (hashKey : String → Nat) (m : SMap) : Prop :=
  ∀ e ∈ entriesOf m, e.1 = hashKey e.2.1

/-- The spec's collision-freedom proviso for a key `k` against a map `m`: no
stored key other than `k` shares `k`'s digest. -/
abbrev NoCollisionKey (hashKey : String → Nat) (m : SMap) (k : String) : Prop :=
  ∀ e ∈ entriesOf m, e.2.1 ≠ k → e.1 ≠ hashKey k

/-- Maps reachable from the empty map through successful `Set` and `Delete`
calls with a fixed hash provider. -/
inductive Reachable (hashKey : String → Nat) : SMap → Prop where
  | empty : Reachable hashKey .nil
  | set {m m' : SMap} {k v : String} : Reachable hashKey m →
      m.Set hashKey k v = .ok m' → Reachable hashKey m'
  | del {m m' : SMap} {k : String} : Reachable hashKey m →
      m.Delete hashKey k = some m' → Reachable hashKey m'

theorem entry_eta (e : Entry) : ((e.1, e.2.1, e.2.2) : Entry) = e := rfl

/-- The `found` flag of a lookup reports exactly whether the digest occurs in
the tree. -/
theorem found_iff {g : Nat → Nat} {m : SMap} (w : WF g m) (H : Nat) :
    (lookupLowLevel m (g H) H).2 = true ↔ ∃ e ∈ entriesOf m, e.1 = H := by
  constructor
  · intro hfound
    by_contra hno
    push_neg at hno
    rw [lookup_absent w H (fun e he => hno e he)] at hfound
    cases hfound
  · rintro ⟨e, he, rfl⟩
    rw [lookup_found w e.1 e.2.1 e.2.2 (entry_eta e ▸ he)]

/-- Full characterisation of a successful `Set` under the invariant and the
collision-freedom proviso. -/
theorem Set_spec (hashKey : String → Nat) {m : SMap} (k v : String)
    (w : WF (fun H => H) m) (hcons : HashConsistent hashKey m)
    (hnc : NoCollisionKey hashKey m k) :
    ∃ m', m.Set hashKey k v = .ok m' ∧ WF (fun H => H) m' ∧ HashConsistent hashKey m' ∧
      (hashKey k, k, v) ∈ entriesOf m' ∧
      (∀ e' ∈ entriesOf m', e' = (hashKey k, k, v) ∨ e' ∈ entriesOf m) ∧
      ((m.Lookup hashKey k).2 = false → m'.Size = m.Size + 1) ∧
      ((m.Lookup hashKey k).2 = true → m'.Size = m.Size) := by
  by_cases hex : ∃ e ∈ entriesOf m, e.1 = hashKey k
  · obtain ⟨e, he, hhe⟩ := hex
    have hkey : e.2.1 = k := by
      by_contra hk
      exact hnc e he hk hhe
    have he' : (hashKey k, k, e.2.2) ∈ entriesOf m := by
      have : ((hashKey k, k, e.2.2) : Entry) = e := by
        rw [← hhe, ← hkey]
      rw [this]
      exact he
    obtain ⟨m', hok, w', heq⟩ := set_update (g := fun H => H) w (hashKey k) k v e.2.2 he'
    have hfound : (m.Lookup hashKey k).2 = true :=
      (found_iff (g := fun H => H) w (hashKey k)).mpr ⟨e, he, hhe⟩
    have hmemm' : (hashKey k, k, v) ∈ entriesOf m' := by
      have hin : ((hashKey k, k, v) : Entry) ∈ entriesMS m + {(hashKey k, k, v)} :=
        Multiset.mem_add.mpr (Or.inr (Multiset.mem_singleton_self _))
      rw [← heq] at hin
      rcases Multiset.mem_add.mp hin with hin | hin
      · exact mem_entriesMS.mp hin
      · have hveq : v = e.2.2 := by
          have hx := Multiset.mem_singleton.mp hin
          exact congrArg (fun p : Entry => p.2.2) hx
        subst hveq
        have hmm : entriesMS m' = entriesMS m := add_right_cancel heq
        rw [← mem_entriesMS, hmm]
        exact mem_entriesMS.mpr he'
    refine ⟨m', hok, w', ?_, hmemm', ?_, ?_, ?_⟩
    · intro e' he''
      have hin : e' ∈ entriesMS m' + ({(hashKey k, k, e.2.2)} : Multiset Entry) :=
        Multiset.mem_add.mpr (Or.inl (mem_entriesMS.mpr he''))
      rw [heq] at hin
      rcases Multiset.mem_add.mp hin with hin | hin
      · exact hcons e' (mem_entriesMS.mp hin)
      · have : e' = (hashKey k, k, v) := Multiset.mem_singleton.mp hin
        subst this
        rfl
    · intro e' he''
      have hin : e' ∈ entriesMS m' + ({(hashKey k, k, e.2.2)} : Multiset Entry) :=
        Multiset.mem_add.mpr (Or.inl (mem_entriesMS.mpr he''))
      rw [heq] at hin
      rcases Multiset.mem_add.mp hin with hin | hin
      · exact Or.inr (mem_entriesMS.mp hin)
      · exact Or.inl (Multiset.mem_singleton.mp hin)
    · intro hcon; rw [hfound] at hcon; cases hcon
    · intro _
      have hcard := congrArg Multiset.card heq
      rw [Multiset.card_add, Multiset.card_add] at hcard
      rw [w'.size_eq_card, w.size_eq_card]
      simpa using hcard
  · push_neg at hex
    obtain ⟨m', hok, w', heq⟩ := set_fresh (g := fun H => H) w (hashKey k) k v hex
    have hfound : (m.Lookup hashKey k).2 = false := by
      have := (found_iff (g := fun H => H) w (hashKey k)).not
      simp only [not_exists, not_and] at this
      cases hres : (m.Lookup hashKey k).2 with
      | false => rfl
      | true =>
          exfalso
          obtain ⟨e, he, hhe⟩ := (found_iff (g := fun H => H) w (hashKey k)).mp hres
          exact hex e he hhe
    refine ⟨m', hok, w', ?_, ?_, ?_, ?_, ?_⟩
    · intro e' he''
      have hin : e' ∈ entriesMS m' := mem_entriesMS.mpr he''
      rw [heq] at hin
      rcases Multiset.mem_cons.mp hin with rfl | hin
      · rfl
      · exact hcons e' (mem_entriesMS.mp hin)
    · rw [← mem_entriesMS, heq]
      exact Multiset.mem_cons_self _ _
    · intro e' he''
      have hin : e' ∈ entriesMS m' := mem_entriesMS.mpr he''
      rw [heq] at hin
      rcases Multiset.mem_cons.mp hin with rfl | hin
      · exact Or.inl rfl
      · exact Or.inr (mem_entriesMS.mp hin)
    · intro _
      have hcard := congrArg Multiset.card heq
      rw [Multiset.card_cons] at hcard
      rw [w'.size_eq_card, w.size_eq_card, hcard]
    · intro hcon; rw [hfound] at hcon; cases hcon

/-- Full characterisation of `Delete` under the invariant: it always succeeds
(no panic); an absent digest returns the very same tree; a present digest
removes exactly that association, leaving every other digest's lookup
untouched. -/
theorem Delete_spec (hashKey : String → Nat) {m : SMap} (k : String)
    (w : WF (fun H => H) m) (hcons : HashConsistent hashKey m) :
    ∃ m', m.Delete hashKey k = some m' ∧ WF (fun H => H) m' ∧ HashConsistent hashKey m' ∧
      ((m.Lookup hashKey k).2 = false → m' = m) ∧
      ((m.Lookup hashKey k).2 = true →
        m'.Size + 1 = m.Size ∧ (m'.Lookup hashKey k).2 = false ∧
        (∀ k', hashKey k' ≠ hashKey k → m'.Lookup hashKey k' = m.Lookup hashKey k')) := by
  by_cases hex : ∃ e ∈ entriesOf m, e.1 = hashKey k
  · obtain ⟨e, he, hhe⟩ := hex
    have he' : (hashKey k, e.2.1, e.2.2) ∈ entriesOf m := by
      have hfix : ((hashKey k, e.2.1, e.2.2) : Entry) = e := by rw [← hhe]
      rw [hfix]; exact he
    obtain ⟨m', hdel, w', heq⟩ :=
      delete_present (g := fun H => H) w (hashKey k) e.2.1 e.2.2 he'
    have hfound : (m.Lookup hashKey k).2 = true :=
      (found_iff (g := fun H => H) w (hashKey k)).mpr ⟨e, he, hhe⟩
    have hmem_m : ∀ e' ∈ entriesOf m', e' ∈ entriesOf m := by
      intro e' he''
      have hin : e' ∈ entriesMS m := by
        rw [← heq]
        exact Multiset.mem_add.mpr (Or.inl (mem_entriesMS.mpr he''))
      exact mem_entriesMS.mp hin
    refine ⟨m', ?_, w', fun e' he'' => hcons e' (hmem_m e' he''), ?_, ?_⟩
    · show (deleteLowLevel m (hashKey k) (hashKey k)).map Prod.fst = some m'
      have hdel' : deleteLowLevel m (hashKey k) (hashKey k) = some (m', true) := hdel
      rw [hdel']
      rfl
    · intro hcon; rw [hfound] at hcon; cases hcon
    · intro _
      have habs : ∀ e' ∈ entriesOf m', e'.1 ≠ hashKey k :=
        hash_not_in_rest (d := (hashKey k, e.2.1, e.2.2)) w heq
      refine ⟨?_, ?_, ?_⟩
      · have hcard := congrArg Multiset.card heq
        rw [Multiset.card_add] at hcard
        rw [w'.size_eq_card, w.size_eq_card]
        simpa using hcard
      · have h2 : m'.Lookup hashKey k = ("", false) :=
          lookup_absent (g := fun H => H) w' (hashKey k) habs
        rw [h2]
      · intro k' hk'
        by_cases hex' : ∃ e2 ∈ entriesOf m, e2.1 = hashKey k'
        · obtain ⟨e2, he2, hhe2⟩ := hex'
          have he2' : e2 ∈ entriesOf m' := by
            have hin : e2 ∈ entriesMS m' + ({(hashKey k, e.2.1, e.2.2)} : Multiset Entry) := by
              rw [heq]
              exact mem_entriesMS.mpr he2
            rcases Multiset.mem_add.mp hin with hin | hin
            · exact mem_entriesMS.mp hin
            · exfalso
              have he2ed : e2 = (hashKey k, e.2.1, e.2.2) := Multiset.mem_singleton.mp hin
              apply hk'
              rw [← hhe2, he2ed]
          have hl1 : m'.Lookup hashKey k' = (e2.2.2, true) := by
            show lookupLowLevel m' (hashKey k') (hashKey k') = (e2.2.2, true)
            rw [← hhe2]
            exact lookup_found (g := fun H => H) w' e2.1 e2.2.1 e2.2.2 (entry_eta e2 ▸ he2')
          have hl2 : m.Lookup hashKey k' = (e2.2.2, true) := by
            show lookupLowLevel m (hashKey k') (hashKey k') = (e2.2.2, true)
            rw [← hhe2]
            exact lookup_found (g := fun H => H) w e2.1 e2.2.1 e2.2.2 (entry_eta e2 ▸ he2)
          rw [hl1, hl2]
        · push_neg at hex'
          have habs' : ∀ e2 ∈ entriesOf m', e2.1 ≠ hashKey k' :=
            fun e2 he2 => hex' e2 (hmem_m e2 he2)
          have hl1 : m'.Lookup hashKey k' = ("", false) :=
            lookup_absent (g := fun H => H) w' (hashKey k') habs'
          have hl2 : m.Lookup hashKey k' = ("", false) :=
            lookup_absent (g := fun H => H) w (hashKey k') hex'
          rw [hl1, hl2]
  · push_neg at hex
    have hnotfound : (m.Lookup hashKey k).2 = false := by
      have h2 : m.Lookup hashKey k = ("", false) :=
        lookup_absent (g := fun H => H) w (hashKey k) hex
      rw [h2]
    have hdel := delete_absent (g := fun H => H) w (hashKey k) hex
    refine ⟨m, ?_, w, hcons, fun _ => rfl, ?_⟩
    · show (deleteLowLevel m (hashKey k) (hashKey k)).map Prod.fst = some m
      have hdel' : deleteLowLevel m (hashKey k) (hashKey k) = some (m, false) := hdel
      rw [hdel']
      rfl
    · intro hcon; rw [hnotfound] at hcon; cases hcon

/-- Every reachable map is well-formed and hash-consistent. -/
theorem reachable_inv {hashKey : String → Nat} {m : SMap} (r : Reachable hashKey m) :
    WF (fun H => H) m ∧ HashConsistent hashKey m := by
  induction r with
  | empty => exact ⟨WF.nil _, fun e he => absurd he (by simp [entriesOf])⟩
  | @set m0 m' k v r0 hset ih =>
      obtain ⟨w, hcons⟩ := ih
      by_cases hex : ∃ e ∈ entriesOf m0, e.1 = hashKey k
      · obtain ⟨e, he, hhe⟩ := hex
        by_cases hkey : e.2.1 = k
        · have he' : (hashKey k, k, e.2.2) ∈ entriesOf m0 := by
            have hfix : ((hashKey k, k, e.2.2) : Entry) = e := by rw [← hhe, ← hkey]
            rw [hfix]; exact he
          obtain ⟨m'', hok, w'', heq⟩ :=
            set_update (g := fun H => H) w (hashKey k) k v e.2.2 he'
          have hok' : m0.Set hashKey k v = .ok m'' := hok
          rw [hok'] at hset
          injection hset with hmm
          subst hmm
          refine ⟨w'', ?_⟩
          intro e' he''
          have hin : e' ∈ entriesMS m'' + ({(hashKey k, k, e.2.2)} : Multiset Entry) :=
            Multiset.mem_add.mpr (Or.inl (mem_entriesMS.mpr he''))
          rw [heq] at hin
          rcases Multiset.mem_add.mp hin with hin | hin
          · exact hcons e' (mem_entriesMS.mp hin)
          · have hx : e' = (hashKey k, k, v) := Multiset.mem_singleton.mp hin
            subst hx; rfl
        · exfalso
          have hem : (hashKey k, e.2.1, e.2.2) ∈ entriesOf m0 := by
            have hfix : ((hashKey k, e.2.1, e.2.2) : Entry) = e := by rw [← hhe]
            rw [hfix]; exact he
          have herr := set_error (g := fun H => H) w (hashKey k) k v e.2.1 e.2.2 hem
            (fun hcon => hkey hcon.symm)
          have herr' : m0.Set hashKey k v = .error (e.2.1, k) := herr
          rw [herr'] at hset
          cases hset
      · push_neg at hex
        obtain ⟨m'', hok, w'', heq⟩ := set_fresh (g := fun H => H) w (hashKey k) k v hex
        have hok' : m0.Set hashKey k v = .ok m'' := hok
        rw [hok'] at hset
        injection hset with hmm
        subst hmm
        refine ⟨w'', ?_⟩
        intro e' he''
        have hin : e' ∈ entriesMS m'' := mem_entriesMS.mpr he''
        rw [heq] at hin
        rcases Multiset.mem_cons.mp hin with rfl | hin
        · rfl
        · exact hcons e' (mem_entriesMS.mp hin)
  | @del m0 m' k r0 hdel ih =>
      obtain ⟨w, hcons⟩ := ih
      obtain ⟨m'', hdel'', w'', hcons'', _, _⟩ := Delete_spec hashKey k w hcons
      rw [hdel''] at hdel
      injection hdel with hmm
      subst hmm
      exact ⟨w'', hcons''⟩

/-- Inserting a list of pairs whose keys have pairwise distinct digests, all
fresh for the accumulator: every insert succeeds and each adds one to the
size. -/
theorem setAll_spec (hashKey : String → Nat) :
    ∀ (ps : List (String × String)) (m : SMap),
      WF (fun H => H) m → HashConsistent hashKey m →
      (ps.map (fun p => hashKey p.1)).Nodup →
      (∀ p ∈ ps, ∀ e ∈ entriesOf m, e.1 ≠ hashKey p.1) →
      ∃ mf, setAll hashKey m ps = .ok mf ∧ mf.Size = m.Size + ps.length := by
  intro ps
  induction ps with
  | nil => intro m _ _ _ _; exact ⟨m, rfl, by simp⟩
  | cons p ps ih =>
      intro m w hcons hnodup hdisj
      obtain ⟨k, v⟩ := p
      have habs : ∀ e ∈ entriesOf m, e.1 ≠ hashKey k :=
        fun e he => hdisj (k, v) (List.mem_cons_self _ _) e he
      have hnc : NoCollisionKey hashKey m k := fun e he _ => habs e he
      obtain ⟨m', hok, w', hcons', hmem', hchar', hfresh, _⟩ :=
        Set_spec hashKey k v w hcons hnc
      have hnotfound : (m.Lookup hashKey k).2 = false := by
        have h2 : m.Lookup hashKey k = ("", false) :=
          lookup_absent (g := fun H => H) w (hashKey k) habs
        rw [h2]
      have hsize := hfresh hnotfound
      have hnodup' : (ps.map (fun p => hashKey p.1)).Nodup := by
        rw [List.map_cons] at hnodup
        exact hnodup.of_cons
      have hhead : hashKey k ∉ ps.map (fun p => hashKey p.1) := by
        rw [List.map_cons] at hnodup
        exact (List.nodup_cons.mp hnodup).1
      have hdisj' : ∀ p' ∈ ps, ∀ e ∈ entriesOf m', e.1 ≠ hashKey p'.1 := by
        intro p' hp' e he
        rcases hchar' e he with rfl | hem
        · intro hcon
          exact hhead (by
            rw [show (hashKey k, k, v).1 = hashKey k from rfl] at hcon
            rw [hcon]
            exact List.mem_map.mpr ⟨p', hp', rfl⟩)
        · exact hdisj p' (List.mem_cons_of_mem _ hp') e hem
      obtain ⟨mf, hfin, hfsize⟩ := ih m' w' hcons' hnodup' hdisj'
      refine ⟨mf, ?_, ?_⟩
      · show setAll hashKey m ((k, v) :: ps) = .ok mf
        simp only [setAll, hok]
        exact hfin
      · rw [hfsize, hsize]
        simp [List.length_cons]
        omega

/-! ## Claim theorems -/

/-- C1: for every map built by `Set`/`Delete` from the empty map (with no hash
collision among its keys and the inserted key), and every key `k` and value
`v`, `Lookup` applied to `Set(m, k, v)` with key `k` returns `(v, true)`. -/
theorem claim_set_then_lookup (hashKey : String → Nat) (m : SMap) (k v : String)
    (hr : Reachable hashKey m) (hnc : NoCollisionKey hashKey m k) :
    ∃ m', m.Set hashKey k v = .ok m' ∧ m'.Lookup hashKey k = (v, true) := by
  obtain ⟨w, hcons⟩ := reachable_inv hr
  obtain ⟨m', hok, w', _, hmem, _, _, _⟩ := Set_spec hashKey k v w hcons hnc
  refine ⟨m', hok, ?_⟩
  show lookupLowLevel m' (hashKey k) (hashKey k) = (v, true)
  exact lookup_found (g := fun H => H) w' (hashKey k) k v hmem

/-- C2: on a collision-free reachable map, `Set` of an absent key increases
`Size` by one and `Set` of a present key leaves `Size` unchanged;
consequently `Size` after `n` distinct-key `Set` calls from the empty map
equals `n`. -/
theorem claim_set_size (hashKey : String → Nat) (m : SMap) (k v : String)
    (hr : Reachable hashKey m) (hnc : NoCollisionKey hashKey m k) :
    (∃ m', m.Set hashKey k v = .ok m' ∧
      ((m.Lookup hashKey k).2 = false → m'.Size = m.Size + 1) ∧
      ((m.Lookup hashKey k).2 = true → m'.Size = m.Size)) ∧
    (∀ ps : List (String × String), (ps.map (fun p => hashKey p.1)).Nodup →
      ∃ mf, setAll hashKey .nil ps = .ok mf ∧ mf.Size = ps.length) := by
  obtain ⟨w, hcons⟩ := reachable_inv hr
  constructor
  · obtain ⟨m', hok, _, _, _, _, habsent, hpresent⟩ := Set_spec hashKey k v w hcons hnc
    exact ⟨m', hok, habsent, hpresent⟩
  · intro ps hnodup
    obtain ⟨mf, hfin, hfsize⟩ := setAll_spec hashKey ps .nil (WF.nil _)
      (fun e he => absurd he (by simp [entriesOf]))
      hnodup
      (fun p _ e he => absurd he (by simp [entriesOf]))
    refine ⟨mf, hfin, ?_⟩
    rw [hfsize]
    show SMap.Size .nil + ps.length = ps.length
    rw [show SMap.Size .nil = 0 from rfl]
    omega

/-- C3: on a collision-free reachable map, deleting a present key `k`
decreases `Size` by exactly one and makes a subsequent `Lookup` of `k` return
`found = false`. -/
theorem claim_delete_present (hashKey : String → Nat) (m : SMap) (k v : String)
    (hr : Reachable hashKey m) (hmem : (hashKey k, k, v) ∈ entriesOf m) :
    ∃ m', m.Delete hashKey k = some m' ∧ m'.Size = m.Size - 1 ∧
      (m'.Lookup hashKey k).2 = false := by
  obtain ⟨w, hcons⟩ := reachable_inv hr
  obtain ⟨m', hdel, _, _, _, hfound⟩ := Delete_spec hashKey k w hcons
  have hflag : (m.Lookup hashKey k).2 = true :=
    (found_iff (g := fun H => H) w (hashKey k)).mpr ⟨_, hmem, rfl⟩
  obtain ⟨hsize, hnf, _⟩ := hfound hflag
  exact ⟨m', hdel, by omega, hnf⟩

/-- C4: deleting a key that is not present returns the original map itself
(hence identical `Size` and identical key/value content). -/
theorem claim_delete_absent (hashKey : String → Nat) (m : SMap) (k : String)
    (hr : Reachable hashKey m) (hnf : (m.Lookup hashKey k).2 = false) :
    ∃ m', m.Delete hashKey k = some m' ∧ m' = m ∧ m'.Size = m.Size ∧
      ∀ k', m'.Lookup hashKey k' = m.Lookup hashKey k' := by
  obtain ⟨w, hcons⟩ := reachable_inv hr
  obtain ⟨m', hdel, _, _, hsame, _⟩ := Delete_spec hashKey k w hcons
  have heq := hsame hnf
  subst heq
  exact ⟨m', hdel, rfl, rfl, fun _ => rfl⟩

/-- C8: on a reachable map containing key `k1`, `Set` with a distinct key
`k2` whose digest collides with `k1`'s raises the fatal collision condition
carrying the two colliding keys, and never returns a map. -/
theorem claim_collision_fatal (hashKey : String → Nat) (m : SMap)
    (k1 k2 v v1 : String) (hr : Reachable hashKey m)
    (hmem : (hashKey k1, k1, v1) ∈ entriesOf m) (hkne : k2 ≠ k1)
    (hhash : hashKey k2 = hashKey k1) :
    m.Set hashKey k2 v = .error (k1, k2) ∧ ∀ m', m.Set hashKey k2 v ≠ .ok m' := by
  obtain ⟨w, _⟩ := reachable_inv hr
  have hmem' : (hashKey k2, k1, v1) ∈ entriesOf m := by rw [hhash]; exact hmem
  have herr : m.Set hashKey k2 v = .error (k1, k2) :=
    set_error (g := fun H => H) w (hashKey k2) k2 v k1 v1 hmem' hkne
  exact ⟨herr, fun m' hcon => by rw [herr] at hcon; cases hcon⟩

/-- C10: deleting one present key leaves the binding of every other key
intact: `Lookup (Delete m k) k' = Lookup m k'` for `k' ≠ k` (collision-free
for `k'`). -/
theorem claim_delete_preserves_others (hashKey : String → Nat) (m : SMap)
    (k k' v : String) (hr : Reachable hashKey m)
    (hnc : NoCollisionKey hashKey m k')
    (hmem : (hashKey k, k, v) ∈ entriesOf m) (hkk : k' ≠ k) :
    ∃ m', m.Delete hashKey k = some m' ∧
      m'.Lookup hashKey k' = m.Lookup hashKey k' := by
  obtain ⟨w, hcons⟩ := reachable_inv hr
  have hne : hashKey k' ≠ hashKey k := by
    intro hcon
    exact hnc (hashKey k, k, v) hmem (fun hc => hkk hc.symm) hcon.symm
  obtain ⟨m', hdel, _, _, _, hfound⟩ := Delete_spec hashKey k w hcons
  have hflag : (m.Lookup hashKey k).2 = true :=
    (found_iff (g := fun H => H) w (hashKey k)).mpr ⟨_, hmem, rfl⟩
  obtain ⟨_, _, hothers⟩ := hfound hflag
  exact ⟨m', hdel, hothers k' hne⟩

/-- The count invariant as a computable check: every node stores one plus the
sum of its children's counts (`Size` of the sentinel being 0). -/
def countOK : SMap → Bool
  | .nil => true
  | .node c _ _ _ f =>
      (c == (List.ofFn (fun j => (f j).Size)).sum + 1) &&
      (List.ofFn (fun j => countOK (f j))).all (fun b => b)

theorem countOK_of_wf {g : Nat → Nat} {m : SMap} (w : WF g m) : countOK m = true := by
  induction w with
  | nil => rfl
  | node g c h k v f hcount hch hpos ih =>
      show ((c == (List.ofFn (fun j => (f j).Size)).sum + 1) &&
        (List.ofFn (fun j => countOK (f j))).all (fun b => b)) = true
      rw [Bool.and_eq_true]
      constructor
      · rw [beq_iff_eq, List.sum_ofFn]
        exact hcount
      · rw [List.all_eq_true]
        intro b hb
        obtain ⟨j, hj⟩ := Set.mem_range.mp ((List.mem_ofFn _ _).mp hb)
        rw [← hj]
        exact ih j

/-- C6: the sentinel's count is 0 and every node of a reachable map satisfies
`count = 1 + Σ count(child)`; hence `Size`, which just reads the root's
count field, equals the number of stored associations. -/
theorem claim_count_invariant (hashKey : String → Nat) (m : SMap)
    (hr : Reachable hashKey m) :
    SMap.Size .nil = 0 ∧ countOK m = true ∧ m.Size = (entriesOf m).length := by
  obtain ⟨w, _⟩ := reachable_inv hr
  refine ⟨rfl, countOK_of_wf w, ?_⟩
  rw [w.size_eq_card]
  exact Multiset.coe_card _

/-- The `ForEach` visit sequence is the entries list with the digest
projected away. -/
theorem visitList_eq {g : Nat → Nat} {m : SMap} (w : WF g m) :
    visitList m = (entriesOf m).map (fun e : Entry => (e.2.1, e.2.2)) := by
  induction w with
  | nil => rfl
  | node g c h k v f hcount hch hpos ih =>
      have hchild : (fun j => if (f j).IsNil then [] else visitList (f j)) =
          (fun j => (entriesOf (f j)).map (fun e : Entry => (e.2.1, e.2.2))) := by
        funext j
        cases hfj : f j with
        | nil => simp [SMap.IsNil, entriesOf]
        | node c' h' k' v' f' =>
            rw [if_neg (by simp [SMap.IsNil])]
            have hj := ih j
            rw [hfj] at hj
            exact hj
      show (k, v) :: (List.ofFn (fun j => if (f j).IsNil then [] else visitList (f j))).flatten =
        ((h, k, v) :: (List.ofFn fun j => entriesOf (f j)).flatten).map
          (fun e : Entry => (e.2.1, e.2.2))
      rw [List.map_cons, hchild]
      congr 1
      rw [List.map_flatten, List.map_ofFn]
      rfl

/-- The keys stored in a reachable map are pairwise distinct. -/
theorem keys_nodup {hashKey : String → Nat} {m : SMap}
    (w : WF (fun H => H) m) (hcons : HashConsistent hashKey m) :
    ((entriesOf m).map (fun e : Entry => e.2.1)).Nodup := by
  have hh : ((entriesOf m).map (fun e : Entry => e.1)).Nodup := by
    rw [← Multiset.coe_nodup, ← Multiset.map_coe]
    rw [Multiset.nodup_iff_count_le_one]
    intro a
    exact count_hashesMS_le_one w a
  have hfactor : (entriesOf m).map (fun e : Entry => e.1) =
      ((entriesOf m).map (fun e : Entry => e.2.1)).map hashKey := by
    rw [List.map_map]
    exact List.map_congr_left (fun e he => hcons e he)
  rw [hfactor] at hh
  exact hh.of_map hashKey

/-- C7: for every reachable map, `Keys` returns a sequence of length `Size`
with no duplicate keys, and `ForEach` visits each current association exactly
once (its visit list counts each stored pair once and anything else zero
times). -/
theorem claim_keys_foreach (hashKey : String → Nat) (m : SMap)
    (hr : Reachable hashKey m) :
    ∃ ks, m.Keys = some ks ∧ ks.length = m.Size ∧ ks.Nodup ∧
      ∀ kv : String × String, Multiset.count kv (Multiset.ofList (visitList m)) =
        (if (hashKey kv.1, kv.1, kv.2) ∈ entriesOf m then 1 else 0) := by
  obtain ⟨w, hcons⟩ := reachable_inv hr
  have hvl := visitList_eq w
  have hlen : ((visitList m).map Prod.fst).length = m.Size := by
    rw [hvl, List.length_map, List.length_map, w.size_eq_card]
    exact (Multiset.coe_card _).symm
  have hkeys : (visitList m).map Prod.fst = (entriesOf m).map (fun e : Entry => e.2.1) := by
    rw [hvl, List.map_map]
    rfl
  have hnodup_keys : ((visitList m).map Prod.fst).Nodup := by
    rw [hkeys]
    exact keys_nodup w hcons
  have hnodup_visit : (visitList m).Nodup := hnodup_keys.of_map Prod.fst
  refine ⟨(visitList m).map Prod.fst, ?_, hlen, hnodup_keys, ?_⟩
  · show (if ((visitList m).map Prod.fst).length ≤ m.Size then
        some ((visitList m).map Prod.fst ++
          List.replicate (m.Size - ((visitList m).map Prod.fst).length) "")
      else none) = some ((visitList m).map Prod.fst)
    rw [if_pos (le_of_eq hlen), hlen, Nat.sub_self]
    simp
  · intro kv
    have hmem_iff : kv ∈ visitList m ↔ (hashKey kv.1, kv.1, kv.2) ∈ entriesOf m := by
      rw [hvl]
      constructor
      · intro hm
        obtain ⟨e, he, hpe⟩ := List.mem_map.mp hm
        have h1 : e.2.1 = kv.1 := congrArg Prod.fst hpe
        have h2 : e.2.2 = kv.2 := congrArg Prod.snd hpe
        have h3 : e.1 = hashKey kv.1 := by rw [hcons e he, h1]
        have : ((hashKey kv.1, kv.1, kv.2) : Entry) = e := by
          rw [← h3, ← h1, ← h2]
        rw [this]
        exact he
      · intro hm
        exact List.mem_map.mpr ⟨(hashKey kv.1, kv.1, kv.2), hm, rfl⟩
    by_cases hmem : (hashKey kv.1, kv.1, kv.2) ∈ entriesOf m
    · rw [if_pos hmem]
      refine Multiset.count_eq_one_of_mem ?_ ?_
      · exact Multiset.coe_nodup.mpr hnodup_visit
      · exact Multiset.mem_coe.mpr (hmem_iff.mpr hmem)
    · rw [if_neg hmem]
      rw [Multiset.count_eq_zero]
      exact fun hc => hmem (hmem_iff.mp (Multiset.mem_coe.mp hc))

/-- Child array of a node; on the sentinel every slot is the sentinel itself
(as in the Go `init` that points the sentinel's children at itself). -/
def SMap.childrenOf : SMap → Fin childCount → SMap
  | .nil => fun _ => .nil
  | .node _ _ _ _ f => f

/-- Under the count invariant alone, `deleteLeftmost` never reaches its
defensive panic on a non-sentinel tree. -/
theorem deleteLeftmost_total : ∀ m : SMap, m ≠ .nil → countOK m = true →
    (deleteLeftmost m).isSome = true := by
  intro m
  induction m with
  | nil => intro hcon; exact absurd rfl hcon
  | node c h k v f ih =>
      intro _ hok
      have hok' := hok
      rw [show countOK (.node c h k v f) =
          ((c == (List.ofFn (fun j => (f j).Size)).sum + 1) &&
            (List.ofFn (fun j => countOK (f j))).all (fun b => b)) from rfl,
        Bool.and_eq_true] at hok'
      obtain ⟨hcnt, hall⟩ := hok'
      rw [beq_iff_eq, List.sum_ofFn] at hcnt
      by_cases hc : c = 1
      · have hleaf : (SMap.node c h k v f).isLeaf = true := by
          simp [SMap.isLeaf, SMap.Size, hc]
        simp [deleteLeftmost, hleaf]
      · have hnz : ∃ j : Fin childCount, (f j).Size ≠ 0 := by
          by_contra hallz
          push_neg at hallz
          have hz : (∑ j : Fin childCount, (f j).Size) = 0 :=
            Finset.sum_eq_zero (fun j _ => hallz j)
          rw [hz] at hcnt
          exact hc hcnt
        obtain ⟨j0, hj0⟩ := hnz
        have hj0' : (f j0).IsNil = false := by
          rw [IsNil_false_iff]
          intro hnil; rw [hnil] at hj0; exact hj0 rfl
        obtain ⟨i, hfn, hini⟩ :=
          firstNonNil_spec f (List.finRange childCount) ⟨j0, List.mem_finRange _, hj0'⟩
        have hoki : countOK (f i) = true := by
          rw [List.all_eq_true] at hall
          exact hall (countOK (f i))
            ((List.mem_ofFn _ _).mpr (Set.mem_range.mpr ⟨i, rfl⟩))
        have hrec := ih i (IsNil_false_iff.mp hini) hoki
        obtain ⟨p, hp⟩ := Option.isSome_iff_exists.mp hrec
        obtain ⟨deleted, child⟩ := p
        have hleaf : (SMap.node c h k v f).isLeaf = false := by
          simp [SMap.isLeaf, SMap.Size, hc]
        simp [deleteLeftmost, hleaf, hfn, hp]

/-- C9: `deleteLeftmost` on a leaf (count 1) returns the node itself with the
sentinel as remaining tree; on any non-leaf non-sentinel node satisfying the
count invariant at least one non-sentinel child exists and the defensive
failure branch is unreachable (the call returns a value — and the Lean
recursion is total, so termination holds by construction). -/
theorem claim_deleteLeftmost_behavior (m : SMap) :
    (m.isLeaf = true → deleteLeftmost m = some (m, .nil)) ∧
    (m ≠ .nil → countOK m = true → m.isLeaf = false →
      (∃ j : Fin childCount, (m.childrenOf j).IsNil = false) ∧
      (deleteLeftmost m).isSome = true) := by
  constructor
  · intro hleaf
    cases m with
    | nil => cases hleaf
    | node c h k v f =>
        simp [deleteLeftmost, hleaf]
  · intro hne hok hleaf
    refine ⟨?_, deleteLeftmost_total m hne hok⟩
    cases m with
    | nil => exact absurd rfl hne
    | node c h k v f =>
        have hok' := hok
        rw [show countOK (.node c h k v f) =
            ((c == (List.ofFn (fun j => (f j).Size)).sum + 1) &&
              (List.ofFn (fun j => countOK (f j))).all (fun b => b)) from rfl,
          Bool.and_eq_true] at hok'
        obtain ⟨hcnt, _⟩ := hok'
        rw [beq_iff_eq, List.sum_ofFn] at hcnt
        have hc : c ≠ 1 := by
          intro hcon
          rw [show (SMap.node c h k v f).isLeaf = (c == 1) from rfl] at hleaf
          rw [hcon] at hleaf
          cases hleaf
        have hnz : ∃ j : Fin childCount, (f j).Size ≠ 0 := by
          by_contra hallz
          push_neg at hallz
          have hz : (∑ j : Fin childCount, (f j).Size) = 0 :=
            Finset.sum_eq_zero (fun j _ => hallz j)
          rw [hz] at hcnt
          exact hc hcnt
        obtain ⟨j0, hj0⟩ := hnz
        refine ⟨j0, ?_⟩
        show (f j0).IsNil = false
        rw [IsNil_false_iff]
        intro hnil; rw [hnil] at hj0; exact hj0 rfl

/-! ## Heap-level model for the persistence claim

The functional embedding above makes persistence true by construction, so to
give the frame-effect claim real content we re-embed the same Go code against
an explicit heap: nodes live in an append-only store (a list of node records
addressed by index), the sentinel is the record at address 0 whose child slots
all hold address 0 (the Go `init` self-loop), `IsNil` is the address test
`= 0`, and `clone` allocates a fresh record at the end of the store.  A write
operation returns the grown store and the address of the new root; the old
root's address and every record it can reach are untouched, which is exactly
the "no node reachable from `m1` is mutated" part of the claim.

Recursion descends through child addresses; every allocation appends, so a
node's children always have strictly smaller addresses.  The definitions guard
each descent with that address ordering (the guard can only fail on a heap the
Go allocator could never have produced) and it doubles as the termination
measure. -/

/-- A tree node as laid out in memory: the `StringMap` struct with child
pointers as store addresses. -/
structure HNode where
  count : Nat
  hash : Nat
  key : String
  value : String
  children : Fin childCount → Nat

/-- The sentinel record: zero-valued struct whose children point at
address 0, i.e. at itself. -/
def sentinelNode : HNode := ⟨0, 0, "", "", fun _ => 0⟩

/-- The store at process start: just the shared sentinel. -/
def initStore : List HNode := [sentinelNode]

/-- Read a record (out-of-range reads, which never occur, give the
sentinel). -/
def getN (s : List HNode) (a : Nat) : HNode := s.getD a sentinelNode

/-- Go `recalculateCount` against the store: one plus the sum of the child
records' counts. -/
def recalcCountS (s : List HNode) (ch : Fin childCount → Nat) : Nat :=
  (List.ofFn (fun j => (getN s (ch j)).count)).foldl (· + ·) 0 + 1

/-- Go `setLowLevel` against the store.  Returns the grown store and the new
root's address; `none` is the collision panic (or the unreachable guard). -/
def setS (s : List HNode) : Nat → Nat → Nat → String → String →
    Option (List HNode × Nat)
  | a, ph, hash, key, value =>
    if a = 0 then
      some (s ++ [⟨1, hash, key, value, fun _ => 0⟩], s.length)
    else
      let n := getN s a
      if hash ≠ n.hash then
        let i := childIdx ph
        if hb : n.children i < a then
          match setS s (n.children i) (ph >>> shiftSize) hash key value with
          | none => none
          | some (s', c) =>
            let ch := Function.update n.children i c
            some (s' ++ [⟨recalcCountS s' ch, n.hash, n.key, n.value, ch⟩], s'.length)
        else none
      else if key ≠ n.key then none
      else some (s ++ [⟨n.count, n.hash, n.key, value, n.children⟩], s.length)
  termination_by a => a
  decreasing_by exact hb

/-- Go loop of `deleteLeftmost` against the store: first child address that
is not the sentinel. -/
def firstNonNilS (ch : Fin childCount → Nat) : List (Fin childCount) → Option (Fin childCount)
  | [] => none
  | j :: js => if ch j = 0 then firstNonNilS ch js else some j

/-- Go donor-selection loop against the store. -/
def argmaxLoopS (s : List HNode) (ch : Fin childCount → Nat) :
    List (Fin childCount) → Int × Int → Int × Int
  | [], acc => acc
  | j :: js, acc =>
      if ((getN s (ch j)).count : Int) > acc.2 then
        argmaxLoopS s ch js (((j : Nat) : Int), ((getN s (ch j)).count : Int))
      else argmaxLoopS s ch js acc

/-- Donor slot index against the store. -/
def argmaxIdxS (s : List HNode) (ch : Fin childCount → Nat) : Fin childCount :=
  childIdx (argmaxLoopS s ch (List.finRange childCount) (-1, -1)).1.toNat

/-- Go `deleteLeftmost` against the store: returns the grown store, the
address of the removed node and the address of the remaining tree; `none` is
the defensive panic. -/
def deleteLeftmostS (s : List HNode) : Nat → Option (List HNode × Nat × Nat)
  | a =>
    let n := getN s a
    if n.count == 1 then some (s, a, 0)
    else
      match firstNonNilS n.children (List.finRange childCount) with
      | none => none
      | some i =>
        if hb : n.children i < a then
          match deleteLeftmostS s (n.children i) with
          | none => none
          | some (s', d, c) =>
            let ch := Function.update n.children i c
            some (s' ++ [⟨recalcCountS s' ch, n.hash, n.key, n.value, ch⟩], d, s'.length)
        else none
  termination_by a => a
  decreasing_by exact hb

/-- Go `deleteLowLevel` against the store: returns the grown store, the new
root address and the `found` flag. -/
def deleteS (s : List HNode) : Nat → Nat → Nat → Option (List HNode × Nat × Bool)
  | a, ph, hash =>
    if a = 0 then some (s, a, false)
    else
      let n := getN s a
      if hash ≠ n.hash then
        let i := childIdx ph
        if hb : n.children i < a then
          match deleteS s (n.children i) (ph >>> shiftSize) hash with
          | none => none
          | some (s', c, found) =>
            if !found then some (s', a, false)
            else
              let ch := Function.update n.children i c
              some (s' ++ [⟨recalcCountS s' ch, n.hash, n.key, n.value, ch⟩], s'.length, true)
        else none
      else if n.count == 1 then some (s, 0, true)
      else
        let i := argmaxIdxS s n.children
        if hb : n.children i < a then
          match deleteLeftmostS s (n.children i) with
          | none => none
          | some (s', d, c) =>
            let r := getN s' d
            let ch := Function.update n.children i c
            some (s' ++ [⟨recalcCountS s' ch, r.hash, r.key, r.value, ch⟩], s'.length, true)
        else none
  termination_by a _ _ => a
  decreasing_by exact hb

/-- Go `lookupLowLevel` against the store. -/
def lookupS (s : List HNode) : Nat → Nat → Nat → String × Bool
  | a, ph, hash =>
    if a = 0 then ("", false)
    else
      let n := getN s a
      if hash ≠ n.hash then
        if hb : n.children (childIdx ph) < a then
          lookupS s (n.children (childIdx ph)) (ph >>> shiftSize) hash
        else ("", false)
      else (n.value, true)
  termination_by a _ _ => a
  decreasing_by exact hb

/-- Go `ForEach` against the store, as the list of visited pairs. -/
def visitS (s : List HNode) : Nat → List (String × String)
  | a =>
    if a = 0 then []
    else
      let n := getN s a
      (n.key, n.value) ::
        (List.ofFn (fun j =>
          if hj : n.children j ≠ 0 ∧ n.children j < a then visitS s (n.children j)
          else [])).flatten
  termination_by a => a
  decreasing_by exact hj.2

/-- Go `Size` against the store: read the root's count field. -/
def SizeS (s : List HNode) (a : Nat) : Nat := (getN s a).count

/-- Go `Keys` against the store. -/
def KeysS (s : List HNode) (a : Nat) : Option (List String) :=
  let ks := (visitS s a).map Prod.fst
  if ks.length ≤ SizeS s a then some (ks ++ List.replicate (SizeS s a - ks.length) "")
  else none

/-- Go `Set` against the store. -/
def SetS (hashKey : String → Nat) (s : List HNode) (a : Nat) (key value : String) :
    Option (List HNode × Nat) :=
  setS s a (hashKey key) (hashKey key) key value

/-- Go `Delete` against the store (dropping the found flag). -/
def DeleteS (hashKey : String → Nat) (s : List HNode) (a : Nat) (key : String) :
    Option (List HNode × Nat) :=
  (deleteS s a (hashKey key) (hashKey key)).map (fun r => (r.1, r.2.1))

/-- Go `Lookup` against the store. -/
def LookupS (hashKey : String → Nat) (s : List HNode) (a : Nat) (key : String) :
    String × Bool :=
  lookupS s a (hashKey key) (hashKey key)

theorem getN_append {s t : List HNode} {a : Nat} (ha : a < s.length) :
    getN (s ++ t) a = getN s a := by
  show (s ++ t).getD a sentinelNode = s.getD a sentinelNode
  rw [List.getD_eq_getElem?_getD, List.getD_eq_getElem?_getD,
    List.getElem?_append_left ha]

/-- `setLowLevel` only appends to the store: every existing record keeps its
address and contents. -/
theorem setS_ext : ∀ (a : Nat) (s : List HNode) (ph hash : Nat) (kk vv : String)
    (s' : List HNode) (c : Nat),
    setS s a ph hash kk vv = some (s', c) → ∃ t, s' = s ++ t := by
  intro a
  induction a using Nat.strong_induction_on with
  | _ a ih =>
    intro s ph hash kk vv s' c hset
    rw [setS] at hset
    dsimp only [] at hset
    split at hset
    · injection hset with h
      have h1 := congrArg Prod.fst h
      subst h1
      exact ⟨_, rfl⟩
    · split at hset
      · split at hset
        · split at hset
          · exact Option.noConfusion hset
          · rename_i s1 c1 hrec
            obtain ⟨t1, ht1⟩ := ih _ (by assumption) s _ _ _ _ _ _ hrec
            injection hset with h
            have h1 := congrArg Prod.fst h
            subst h1
            rw [ht1, List.append_assoc]
            exact ⟨_, rfl⟩
        · exact Option.noConfusion hset
      · split at hset
        · exact Option.noConfusion hset
        · injection hset with h
          have h1 := congrArg Prod.fst h
          subst h1
          exact ⟨_, rfl⟩

/-- `deleteLeftmost` only appends to the store. -/
theorem deleteLeftmostS_ext : ∀ (a : Nat) (s s' : List HNode) (d c : Nat),
    deleteLeftmostS s a = some (s', d, c) → ∃ t, s' = s ++ t := by
  intro a
  induction a using Nat.strong_induction_on with
  | _ a ih =>
    intro s s' d c hdel
    rw [deleteLeftmostS] at hdel
    dsimp only [] at hdel
    split at hdel
    · injection hdel with h
      have h1 := congrArg Prod.fst h
      subst h1
      exact ⟨[], by simp⟩
    · split at hdel
      · exact Option.noConfusion hdel
      · split at hdel
        · split at hdel
          · exact Option.noConfusion hdel
          · rename_i s1 d1 c1 hrec
            obtain ⟨t1, ht1⟩ := ih _ (by assumption) s _ _ _ hrec
            injection hdel with h
            have h1 := congrArg Prod.fst h
            subst h1
            rw [ht1, List.append_assoc]
            exact ⟨_, rfl⟩
        · exact Option.noConfusion hdel

/-- `deleteLowLevel` only appends to the store. -/
theorem deleteS_ext : ∀ (a : Nat) (s : List HNode) (ph hash : Nat)
    (s' : List HNode) (r : Nat) (fnd : Bool),
    deleteS s a ph hash = some (s', r, fnd) → ∃ t, s' = s ++ t := by
  intro a
  induction a using Nat.strong_induction_on with
  | _ a ih =>
    intro s ph hash s' r fnd hdel
    rw [deleteS] at hdel
    dsimp only [] at hdel
    split at hdel
    · injection hdel with h
      have h1 := congrArg Prod.fst h
      subst h1
      exact ⟨[], by simp⟩
    · split at hdel
      · split at hdel
        · split at hdel
          · exact Option.noConfusion hdel
          · rename_i s1 c1 found1 hrec
            obtain ⟨t1, ht1⟩ := ih _ (by assumption) s _ _ _ _ _ hrec
            split at hdel
            · injection hdel with h
              have h1 := congrArg Prod.fst h
              subst h1
              exact ⟨t1, ht1⟩
            · injection hdel with h
              have h1 := congrArg Prod.fst h
              subst h1
              rw [ht1, List.append_assoc]
              exact ⟨_, rfl⟩
        · exact Option.noConfusion hdel
      · split at hdel
        · injection hdel with h
          have h1 := congrArg Prod.fst h
          subst h1
          exact ⟨[], by simp⟩
        · split at hdel
          · split at hdel
            · exact Option.noConfusion hdel
            · rename_i s1 d1 c1 hrec
              obtain ⟨t1, ht1⟩ := deleteLeftmostS_ext _ s _ _ _ hrec
              injection hdel with h
              have h1 := congrArg Prod.fst h
              subst h1
              rw [ht1, List.append_assoc]
              exact ⟨_, rfl⟩
          · exact Option.noConfusion hdel

/-- Reads through an old root are unaffected by appended records. -/
theorem lookupS_congr : ∀ (a : Nat) (s t : List HNode) (ph hash : Nat), a < s.length →
    lookupS (s ++ t) a ph hash = lookupS s a ph hash := by
  intro a
  induction a using Nat.strong_induction_on with
  | _ a ih =>
    intro s t ph hash ha
    rw [lookupS, lookupS]
    dsimp only []
    by_cases h0 : a = 0
    · rw [if_pos h0, if_pos h0]
    · rw [if_neg h0, if_neg h0, getN_append ha]
      by_cases hh : hash ≠ (getN s a).hash
      · rw [if_pos hh, if_pos hh]
        by_cases hb : (getN s a).children (childIdx ph) < a
        · rw [dif_pos hb, dif_pos hb]
          exact ih _ hb s t _ _ (lt_trans hb ha)
        · rw [dif_neg hb, dif_neg hb]
      · rw [if_neg hh, if_neg hh]

/-- The visit sequence of an old root is unaffected by appended records. -/
theorem visitS_congr : ∀ (a : Nat) (s t : List HNode), a < s.length →
    visitS (s ++ t) a = visitS s a := by
  intro a
  induction a using Nat.strong_induction_on with
  | _ a ih =>
    intro s t ha
    rw [visitS, visitS]
    dsimp only []
    by_cases h0 : a = 0
    · rw [if_pos h0, if_pos h0]
    · rw [if_neg h0, if_neg h0, getN_append ha]
      congr 1
      refine congrArg List.flatten (congrArg List.ofFn (funext fun j => ?_))
      by_cases hj : (getN s a).children j ≠ 0 ∧ (getN s a).children j < a
      · rw [dif_pos hj, dif_pos hj]
        exact ih _ hj.2 s t (lt_trans hj.2 ha)
      · rw [dif_neg hj, dif_neg hj]

theorem sizeS_congr (a : Nat) (s t : List HNode) (ha : a < s.length) :
    SizeS (s ++ t) a = SizeS s a := by
  show (getN (s ++ t) a).count = (getN s a).count
  rw [getN_append ha]

theorem keysS_congr (a : Nat) (s t : List HNode) (ha : a < s.length) :
    KeysS (s ++ t) a = KeysS s a := by
  show (let ks := (visitS (s ++ t) a).map Prod.fst;
    if ks.length ≤ SizeS (s ++ t) a then
      some (ks ++ List.replicate (SizeS (s ++ t) a - ks.length) "") else none) = _
  rw [visitS_congr a s t ha, sizeS_congr a s t ha]
  rfl

/-- C5: persistence.  Building `m2 = Set(m1, k, v)` or `m2 = Delete(m1, k)`
against the explicit heap leaves `m1` observationally unchanged: the store
only grows (no record reachable from `m1`'s root is mutated — its address
range is untouched), and every `Lookup`, `Size` and `Keys` result on `m1`'s
root after the call equals its result before the call.  In the functional
embedding the same persistence holds by construction, since `Set`/`Delete`
return new `SMap` values without modifying their argument. -/
theorem claim_persistence (hashKey : String → Nat) (s : List HNode) (a : Nat)
    (k v : String) (ha : a < s.length) :
    (∀ s' c, SetS hashKey s a k v = some (s', c) →
      (∃ t, s' = s ++ t) ∧
      (∀ k', LookupS hashKey s' a k' = LookupS hashKey s a k') ∧
      SizeS s' a = SizeS s a ∧ KeysS s' a = KeysS s a) ∧
    (∀ s' c, DeleteS hashKey s a k = some (s', c) →
      (∃ t, s' = s ++ t) ∧
      (∀ k', LookupS hashKey s' a k' = LookupS hashKey s a k') ∧
      SizeS s' a = SizeS s a ∧ KeysS s' a = KeysS s a) := by
  constructor
  · intro s' c hset
    have hset' : setS s a (hashKey k) (hashKey k) k v = some (s', c) := hset
    obtain ⟨t, ht⟩ := setS_ext a s _ _ _ _ _ _ hset'
    subst ht
    exact ⟨⟨t, rfl⟩, fun k' => lookupS_congr a s t _ _ ha, sizeS_congr a s t ha,
      keysS_congr a s t ha⟩
  · intro s' c hdel
    have hdel' : (deleteS s a (hashKey k) (hashKey k)).map (fun r => (r.1, r.2.1)) =
        some (s', c) := hdel
    cases hd : deleteS s a (hashKey k) (hashKey k) with
    | none => rw [hd] at hdel'; cases hdel'
    | some r =>
        obtain ⟨s1, r1, fnd⟩ := r
        rw [hd] at hdel'
        injection hdel' with h
        have h1 : s1 = s' := congrArg Prod.fst h
        subst h1
        obtain ⟨t, ht⟩ := deleteS_ext a s _ _ _ _ _ hd
        subst ht
        exact ⟨⟨t, rfl⟩, fun k' => lookupS_congr a s t _ _ ha, sizeS_congr a s t ha,
          keysS_congr a s t ha⟩

/-! ## Concrete witness data

A concrete hash provider (string length — deterministic, and collision-free
on the chosen keys except where a collision is wanted) and two small maps
built through the public interface. -/

/-- Witness hash provider. -/
def hw : String → Nat := String.length

/-- The map `{"a" ↦ "x"}` built by one `Set` from empty. -/
def w1 : SMap :=
  match SMap.Set hw .nil "a" "x" with
  | .ok t => t
  | .error _ => .nil

/-- The map `{"a" ↦ "x", "bb" ↦ "y"}` built by two `Set`s from empty. -/
def w2 : SMap :=
  match SMap.Set hw w1 "bb" "y" with
  | .ok t => t
  | .error _ => .nil

theorem reachable_w1 : Reachable hw w1 := Reachable.set Reachable.empty rfl

theorem reachable_w2 : Reachable hw w2 :=
  Reachable.set (k := "bb") (v := "y") reachable_w1 rfl

/-- Witness for C1 on the concrete map `w1`. -/
theorem claim_set_then_lookup_witness :
    ∃ m', w1.Set hw "bb" "y" = .ok m' ∧ m'.Lookup hw "bb" = ("y", true) :=
  claim_set_then_lookup hw w1 "bb" "y" reachable_w1 (by decide)

/-- Witness for C2 on the concrete map `w1`. -/
theorem claim_set_size_witness :
    (∃ m', w1.Set hw "bb" "y" = .ok m' ∧
      ((w1.Lookup hw "bb").2 = false → m'.Size = w1.Size + 1) ∧
      ((w1.Lookup hw "bb").2 = true → m'.Size = w1.Size)) ∧
    (∀ ps : List (String × String), (ps.map (fun p => hw p.1)).Nodup →
      ∃ mf, setAll hw .nil ps = .ok mf ∧ mf.Size = ps.length) :=
  claim_set_size hw w1 "bb" "y" reachable_w1 (by decide)

/-- Witness for C3 on the concrete map `w2`. -/
theorem claim_delete_present_witness :
    ∃ m', w2.Delete hw "a" = some m' ∧ m'.Size = w2.Size - 1 ∧
      (m'.Lookup hw "a").2 = false :=
  claim_delete_present hw w2 "a" "x" reachable_w2 (by decide)

/-- Witness for C4 on the concrete map `w2`. -/
theorem claim_delete_absent_witness :
    ∃ m', w2.Delete hw "ccc" = some m' ∧ m' = w2 ∧ m'.Size = w2.Size ∧
      ∀ k', m'.Lookup hw k' = w2.Lookup hw k' :=
  claim_delete_absent hw w2 "ccc" reachable_w2 (by decide)

/-- Witness for C5 on the initial store. -/
theorem claim_persistence_witness :
    (∀ s' c, SetS hw initStore 0 "a" "x" = some (s', c) →
      (∃ t, s' = initStore ++ t) ∧
      (∀ k', LookupS hw s' 0 k' = LookupS hw initStore 0 k') ∧
      SizeS s' 0 = SizeS initStore 0 ∧ KeysS s' 0 = KeysS initStore 0) ∧
    (∀ s' c, DeleteS hw initStore 0 "a" = some (s', c) →
      (∃ t, s' = initStore ++ t) ∧
      (∀ k', LookupS hw s' 0 k' = LookupS hw initStore 0 k') ∧
      SizeS s' 0 = SizeS initStore 0 ∧ KeysS s' 0 = KeysS initStore 0) :=
  claim_persistence hw initStore 0 "a" "x" (by decide)

/-- Witness for C6 on the concrete map `w2`. -/
theorem claim_count_invariant_witness :
    SMap.Size .nil = 0 ∧ countOK w2 = true ∧ w2.Size = (entriesOf w2).length :=
  claim_count_invariant hw w2 reachable_w2

/-- Witness for C7 on the concrete map `w2`. -/
theorem claim_keys_foreach_witness :
    ∃ ks, w2.Keys = some ks ∧ ks.length = w2.Size ∧ ks.Nodup ∧
      ∀ kv : String × String, Multiset.count kv (Multiset.ofList (visitList w2)) =
        (if (hw kv.1, kv.1, kv.2) ∈ entriesOf w2 then 1 else 0) :=
  claim_keys_foreach hw w2 reachable_w2

/-- Witness for C8: the keys `"a"` and `"b"` collide under `hw` (both have
length 1). -/
theorem claim_collision_fatal_witness :
    w1.Set hw "b" "z" = .error ("a", "b") ∧ ∀ m', w1.Set hw "b" "z" ≠ .ok m' :=
  claim_collision_fatal hw w1 "a" "b" "z" "x" reachable_w1 (by decide) (by decide) (by decide)

/-- Witness for C9: `w1` is a leaf; `w2` is a non-leaf with a non-sentinel
child. -/
theorem claim_deleteLeftmost_behavior_witness :
    (deleteLeftmost w1 = some (w1, .nil)) ∧
    ((∃ j : Fin childCount, ((w2.childrenOf j).IsNil = false)) ∧
      (deleteLeftmost w2).isSome = true) :=
  ⟨(claim_deleteLeftmost_behavior w1).1 (by decide),
   (claim_deleteLeftmost_behavior w2).2 (IsNil_false_iff.mp (by decide)) (by decide) (by decide)⟩

/-- Witness for C10 on the concrete map `w2`. -/
theorem claim_delete_preserves_others_witness :
    ∃ m', w2.Delete hw "a" = some m' ∧ m'.Lookup hw "bb" = w2.Lookup hw "bb" :=
  claim_delete_preserves_others hw w2 "a" "bb" "x" reachable_w2 (by decide) (by decide)
    (by decide)
